import Mathlib

/-!
# Package `fp` of `fuk-funding/go`: folds, circular indexing, separator-splitting reader

A shallow embedding of `src/fp/all.go` and properties of it.

Conventions of the embedding

* A Go slice is a `List`; a Go `int` is an `Int`, and every arithmetic operation
  of the source that could leave the 64-bit range is wrapped with `wrapInt`.
  A Go slice never has `2 ^ 63` elements or more, so statements about slices
  carry that bound on the length where the arithmetic needs it.
* A run-time panic (division by zero, index or slice bound out of range) is the
  outer `none` of an `Option`.
* A Go `error` is an `Option ε`, `none` being `nil`.
* A callback is a Go closure that may have effects, so it is a state-passing
  function: it receives the state `σ` of the world it acts on and returns the
  new one. The order and the arguments of its invocations can be read from
  that state.
-/

set_option autoImplicit false

namespace Fp

universe u

/-! ## Machine integers -/

/-- Go `int` on a 64-bit target: the two's-complement representative of an integer. -/
def wrapInt (x : Int) : Int := (x + 2 ^ 63) % 2 ^ 64 - 2 ^ 63

/-- Go `a % b` on `int`: the remainder of the truncated division, with the sign
of `a`; a zero divisor is a run-time panic. -/
def goRem (a b : Int) : Option Int :=
  if b = 0 then none else some (Int.tmod a b)

/-! ## Circular indexing helpers (`all.go` lines 141-148) -/

/-- The function `SliceIdx(v, i)`: `l := len(v); return ((i % l) + l) % l`. -/
def SliceIdx {α : Type u} (v : List α) (i : Int) : Option Int :=
  let l : Int := v.length
  match goRem i l with
  | none => none
  | some r => goRem (wrapInt (r + l)) l

/-- The function `SliceAt(v, i)`: `return v[SliceIdx(v, i)]`; indexing outside `0 ≤ idx < len(v)` panics. -/
def SliceAt {α : Type u} (v : List α) (i : Int) : Option α :=
  match SliceIdx v i with
  | none => none
  | some idx => if 0 ≤ idx ∧ idx < v.length then v[idx.toNat]? else none

/-! ## Suffix-match predicate (`all.go` lines 150-167) -/

/-- The body of `for i := 0; i < len(ends); i++` of `IsEndsWith`, run over the
values `i` takes: `idx := -(i + 1)`, return `false` at the first position where
`SliceAt(ends, idx) != SliceAt(source, idx)`, and `true` after the last one. -/
def IsEndsWith.loop {α : Type u} [DecidableEq α] (source ends : List α) : List Nat → Option Bool
  | [] => some true
  | i :: rest =>
      let idx := wrapInt (-(wrapInt ((i : Int) + 1)))
      match SliceAt ends idx, SliceAt source idx with
      | some e, some s => if e ≠ s then some false else IsEndsWith.loop source ends rest
      | _, _ => none

/-- The function `IsEndsWith(source, ends)`: `false` when `ends` is longer than `source`
or either is empty, otherwise the result of the comparison loop. -/
def IsEndsWith {α : Type u} [DecidableEq α] (source ends : List α) : Option Bool :=
  if ends.length > source.length then some false
  else if ends.length = 0 ∨ source.length = 0 then some false
  else IsEndsWith.loop source ends (List.range ends.length)

/-! ## Folds (`all.go` lines 46-63) -/

/-- The `range` loop of `ReduceErr` from index `i` on: `to, err = fn(from, to, fromIndex)`
and return at the first non-nil `err`, with the `to` that this call returned
(`acc` stands for the variable `to` of the source). The index of a `range` loop stays
below `len(fromSlice)`, so it is not wrapped. -/
def ReduceErr.loop {From To ε σ : Type} (fn : From → To → Int → σ → (To × Option ε) × σ) :
    List From → Int → To → σ → (To × Option ε) × σ
  | [], _, acc, s => ((acc, none), s)
  | x :: rest, i, acc, s =>
      match fn x acc i s with
      | ((acc', some e), s') => ((acc', some e), s')
      | ((acc', none), s') => ReduceErr.loop fn rest (i + 1) acc' s'

/-- The function `ReduceErr(fromSlice, fn, initialValue)`: the pair `(to, err)` and the state the
calls of `fn` leave. -/
def ReduceErr {From To ε σ : Type} (fromSlice : List From)
    (fn : From → To → Int → σ → (To × Option ε) × σ) (initialValue : To) (s : σ) :
    (To × Option ε) × σ :=
  ReduceErr.loop fn fromSlice 0 initialValue s

/-- The `range` loop of `Reduce` from index `i` on: `to = fn(from, to, fromIndex)`. -/
def Reduce.loop {From To σ : Type} (fn : From → To → Int → σ → To × σ) :
    List From → Int → To → σ → To × σ
  | [], _, acc, s => (acc, s)
  | x :: rest, i, acc, s =>
      match fn x acc i s with
      | (acc', s') => Reduce.loop fn rest (i + 1) acc' s'

/-- The function `Reduce(fromSlice, fn, initialValue)`: the value `to` and the state the calls of
`fn` leave. -/
def Reduce {From To σ : Type} (fromSlice : List From) (fn : From → To → Int → σ → To × σ)
    (initialValue : To) (s : σ) : To × σ :=
  Reduce.loop fn fromSlice 0 initialValue s

/-! ## Map and forEach (`all.go` lines 14-44) -/

/-- The loop of `ForEachErr1` from index `i` on: call `fn(v2, v, i)` and return its
error if it has one. -/
def ForEachErr1.loop {T T2 ε σ : Type} (v2 : T2) (fn : T2 → T → Int → σ → Option ε × σ) :
    List T → Int → σ → Option ε × σ
  | [], _, s => (none, s)
  | v :: rest, i, s =>
      match fn v2 v i s with
      | (some err, s') => (some err, s')
      | (none, s') => ForEachErr1.loop v2 fn rest (i + 1) s'

/-- The function `ForEachErr1(slice, v2, fn)`: the returned error and the state the
calls of `fn` leave. -/
def ForEachErr1 {T T2 ε σ : Type} (slice : List T) (v2 : T2)
    (fn : T2 → T → Int → σ → Option ε × σ) (s : σ) : Option ε × σ :=
  ForEachErr1.loop v2 fn slice 0 s

/-- The loop of `ForEachErr` from index `i` on: call `fn(v, i)` and return its error if
it has one. -/
def ForEachErr.loop {T ε σ : Type} (fn : T → Int → σ → Option ε × σ) :
    List T → Int → σ → Option ε × σ
  | [], _, s => (none, s)
  | v :: rest, i, s =>
      match fn v i s with
      | (some err, s') => (some err, s')
      | (none, s') => ForEachErr.loop fn rest (i + 1) s'

/-- The function `ForEachErr(slice, fn)`: the returned error and the state the calls of
`fn` leave. -/
def ForEachErr {T ε σ : Type} (slice : List T) (fn : T → Int → σ → Option ε × σ) (s : σ) :
    Option ε × σ :=
  ForEachErr.loop fn slice 0 s

/-- The assignment `toSlice[fromIdx] = v`: a panic unless `0 ≤ fromIdx < len(toSlice)`. -/
def setIndex {To : Type} (toSlice : List To) (fromIdx : Int) (v : To) : Option (List To) :=
  if 0 ≤ fromIdx ∧ fromIdx < toSlice.length then some (toSlice.set fromIdx.toNat v) else none

/-- The function literal `MapErr` passes to `ReduceErr`:
`toSlice[fromIdx], err = fn(from, fromIdx); return toSlice, err`. The accumulator is the
slice `toSlice`, or `none` once the assignment has panicked; `fn` is not called after a
panic. -/
def MapErr.body {From To ε σ : Type} (fn : From → Int → σ → (To × Option ε) × σ) (x : From)
    (toSlice : Option (List To)) (fromIdx : Int) (st : σ) : (Option (List To) × Option ε) × σ :=
  match toSlice with
  | none => ((none, none), st)
  | some sl =>
      match fn x fromIdx st with
      | ((v, err), st') => ((setIndex sl fromIdx v, err), st')

/-- The function `MapErr(fromSlice, fn)`, `zero` being the zero value of `To` that
`make([]To, len(fromSlice))` fills the new slice with: the slice (`none` after a panic),
the error, and the state the calls of `fn` leave. -/
def MapErr {From To ε σ : Type} (zero : To) (fromSlice : List From)
    (fn : From → Int → σ → (To × Option ε) × σ) (s : σ) : (Option (List To) × Option ε) × σ :=
  ReduceErr fromSlice (MapErr.body fn) (some (List.replicate fromSlice.length zero)) s

/-- The function literal `Map` passes to `Reduce`:
`toSlice[fromIdx] = fn(from, fromIdx); return toSlice`. The accumulator is the slice
`toSlice`, or `none` once the assignment has panicked; `fn` is not called after a panic. -/
def Map.body {From To σ : Type} (fn : From → Int → σ → To × σ) (x : From)
    (toSlice : Option (List To)) (fromIdx : Int) (st : σ) : Option (List To) × σ :=
  match toSlice with
  | none => (none, st)
  | some sl =>
      match fn x fromIdx st with
      | (v, st') => (setIndex sl fromIdx v, st')

/-- The function `Map(fromSlice, fn)`, `zero` being the zero value of `To` that
`make([]To, len(fromSlice))` fills the new slice with: the slice (`none` after a panic)
and the state the calls of `fn` leave. -/
def Map {From To σ : Type} (zero : To) (fromSlice : List From) (fn : From → Int → σ → To × σ)
    (s : σ) : Option (List To) × σ :=
  Reduce fromSlice (Map.body fn) (some (List.replicate fromSlice.length zero)) s

/-! ## Byte-iteration driver (`all.go` lines 85-110) -/

/-- A Go `byte`. -/
abbrev Byte := UInt8

/-- What the file system answers for one path: the result of `os.Open`, the bytes
`ReadByte` delivers, the error that ends the reading (`none` is `io.EOF`) and the
result of `Close`. -/
structure File (ε : Type) where
  /-- The error of `os.Open`, if any. -/
  openErr : Option ε
  /-- The bytes read before `ReadByte` reports an error. -/
  content : List Byte
  /-- The error of the last `ReadByte` when it is not `io.EOF`. -/
  readErr : Option ε
  /-- The error of `Close`, if any. -/
  closeErr : Option ε

/-- A file that opens, delivers `content` up to end-of-file, and closes, without error. -/
def File.ofContent {ε : Type} (content : List Byte) : File ε :=
  { openErr := none, content := content, readErr := none, closeErr := none }

/-- The function `multierr.Append` on two errors, `joinErr` being what the library builds from two
non-nil ones. -/
def multierrAppend {ε : Type} (joinErr : ε → ε → ε) : Option ε → Option ε → Option ε
  | none, r => r
  | some l, none => some l
  | some l, some r => some (joinErr l r)

/-- The `for` loop of `IterateFileBytes`: at `io.EOF` leave the loop and return the
(nil) error of the function, at another read error return it, otherwise call `f`
on the byte and return its error if it has one. -/
def IterateFileBytes.loop {ε τ : Type} (f : Byte → τ → Option (Option ε × τ)) :
    List Byte → Option ε → τ → Option (Option ε × τ)
  | [], readErr, s => some (readErr, s)
  | b :: rest, readErr, s =>
      match f b s with
      | none => none
      | some (some e, s') => some (some e, s')
      | some (none, s') => IterateFileBytes.loop f rest readErr s'

/-- The function `IterateFileBytes(filePath, f)`, on the file found at the path. The deferred
`multierr.AppendInvoke(&err, multierr.Close(file))` adds the error of `Close` to the
returned one. -/
def IterateFileBytes {ε τ : Type} (joinErr : ε → ε → ε) (file : File ε)
    (f : Byte → τ → Option (Option ε × τ)) (s : τ) : Option (Option ε × τ) :=
  match file.openErr with
  | some e => some (some e, s)
  | none =>
      match IterateFileBytes.loop f file.content file.readErr s with
      | none => none
      | some (err, s') => some (multierrAppend joinErr err file.closeErr, s')

/-! ## Streaming separator-splitting reader (`all.go` lines 112-139) -/

/-- The closure `IterateFileBySeparator` passes to `IterateFileBytes`; its state is
the captured `buff` and the state of the callback `f`. The slice expression
`buff[0:idx]` panics unless `0 ≤ idx ≤ len(buff)` (Go allows `idx` up to the capacity;
the embedding is stricter). The deferred `buff = []byte{}` runs after `f`. -/
def IterateFileBySeparator.step {ε σ : Type} (sep : List Byte)
    (f : List Byte → σ → Option ε × σ) (r : Byte) :
    List Byte × σ → Option (Option ε × (List Byte × σ))
  | (buff0, s) =>
      let buff := buff0 ++ [r]
      match IsEndsWith buff sep with
      | none => none
      | some true =>
          if buff.length = 0 then some (none, ([], s))
          else
            match SliceIdx buff (wrapInt (-(sep.length : Int))) with
            | none => none
            | some idx =>
                if 0 ≤ idx ∧ idx ≤ buff.length then
                  match f (buff.take idx.toNat) s with
                  | (err, s') => some (err, ([], s'))
                else none
      | some false => some (none, (buff, s))

/-- The function `IterateFileBySeparator(filePath, sep, f)`, on the file found at the path: the
returned error and the state the calls of `f` leave. -/
def IterateFileBySeparator {ε σ : Type} (joinErr : ε → ε → ε) (file : File ε)
    (sep : List Byte) (f : List Byte → σ → Option ε × σ) (s : σ) : Option (Option ε × σ) :=
  match IterateFileBytes joinErr file (IterateFileBySeparator.step sep f) (([] : List Byte), s) with
  | none => none
  | some (some e, (_, s')) => some (some e, s')
  | some (none, (buff, s')) =>
      if buff.length > 0 then some (f buff s') else some (none, s')

/-! ## Vocabulary of the statements -/

/-- The bytes of an ASCII string. -/
def bytes (s : String) : List Byte := s.toList.map (fun c => UInt8.ofNat c.toNat)

/-- A callback that always succeeds and appends the chunk it receives to the list of
the chunks received so far. -/
def record {ε : Type} (chunk : List Byte) (received : List (List Byte)) :
    Option ε × List (List Byte) :=
  (none, received ++ [chunk])

/-- Calling `f` on the chunks of a list, in order, up to and including the first call
that returns an error: the error (or `none`) and the state after the last call made. -/
def callSeq {ε σ : Type} (f : List Byte → σ → Option ε × σ) : List (List Byte) → σ → Option ε × σ
  | [], s => (none, s)
  | c :: rest, s =>
      match f c s with
      | (some e, s') => (some e, s')
      | (none, s') => callSeq f rest s'

/-- The callback `f`, also noting each chunk it is invoked with, before it runs. -/
def noting {ε σ : Type} (f : List Byte → σ → Option ε × σ) (chunk : List Byte) :
    σ × List (List Byte) → Option ε × (σ × List (List Byte))
  | (s, received) =>
      match f chunk s with
      | (err, s') => (err, (s', received ++ [chunk]))

/-- The combining function `fn`, also noting each index it is invoked with. -/
def notingIdx {From To ε σ : Type} (fn : From → To → Int → σ → (To × Option ε) × σ)
    (x : From) (acc : To) (i : Int) : σ × List Int → (To × Option ε) × (σ × List Int)
  | (s, seen) =>
      match fn x acc i s with
      | (r, s') => (r, (s', seen ++ [i]))

/-- A function of the element and the index alone, as a callback that also notes, in
its state, each pair of element and index it is called with. -/
def logCalls {From R : Type} (g : From → Int → R) (x : From) (i : Int)
    (seen : List (From × Int)) : R × List (From × Int) :=
  (g x i, seen ++ [(x, i)])

/-- The elements of a sequence, in order, each with its zero-based position. -/
def indexed {From : Type} (S : List From) : List (From × Int) :=
  S.enum.map (fun p => (p.2, (p.1 : Int)))

/-- A way to join two error messages, for the examples. -/
def joinMsg (l r : String) : String := l ++ "; " ++ r

/-! ## Auxiliary function of the proofs -/

/-- What the reader does on the bytes `rest` when its accumulator holds `buff`, as a
function of the data alone: the chunks cut at the separator matches, and the
accumulator left at the end. It is related to the code by `loop_step_eq`. -/
def splitAcc (sep : List Byte) : List Byte → List Byte → List (List Byte) × List Byte
  | [], buff => ([], buff)
  | b :: rest, buff =>
      if sep ≠ [] ∧ sep <:+ buff ++ [b] then
        ((buff ++ [b]).take ((buff ++ [b]).length - sep.length) :: (splitAcc sep rest []).1,
          (splitAcc sep rest []).2)
      else splitAcc sep rest (buff ++ [b])

/-- The chunks the reader delivers on the content `S`: those cut at the matches, then
the accumulator left at end-of-file when it is not empty. -/
def chunksOf (sep S : List Byte) : List (List Byte) :=
  (splitAcc sep S []).1 ++ (if (splitAcc sep S []).2 = [] then [] else [(splitAcc sep S []).2])

/-! # Theorems -/

/-! ## Machine arithmetic within range -/

theorem wrapInt_of_range (x : Int) (h1 : -2 ^ 63 ≤ x) (h2 : x < 2 ^ 63) : wrapInt x = x := by
  unfold wrapInt; omega

theorem tmod_neg_of_lt (k l : Int) (h0 : 0 ≤ k) (h : k < l) : Int.tmod (-k) l = -k := by
  rw [Int.tmod_def, Int.neg_tdiv, Int.tdiv_eq_zero_of_lt h0 h]; simp

/-- Counting `k` places back from the end of a slice of length `l`, `1 ≤ k ≤ l`,
`SliceIdx` gives the position `l - k`. -/
theorem SliceIdx_neg {α : Type u} (v : List α) (k : Nat) (hk1 : 1 ≤ k) (hk : k ≤ v.length)
    (hb : v.length < 2 ^ 63) : SliceIdx v (-(k : Int)) = some ((v.length : Int) - k) := by
  have hl : (v.length : Int) ≠ 0 := by omega
  have hbI : (v.length : Int) < 2 ^ 63 := by exact_mod_cast hb
  have hkI : (k : Int) ≤ v.length := by exact_mod_cast hk
  unfold SliceIdx goRem
  simp only [hl, if_false]
  rcases Nat.lt_or_eq_of_le hk with hlt | heq
  · rw [tmod_neg_of_lt k v.length (by omega) (by omega)]
    rw [wrapInt_of_range _ (by omega) (by omega)]
    rw [Int.tmod_eq_of_lt (by omega) (by omega)]
    congr 1; omega
  · rw [heq]
    simp only [Int.neg_tmod_self, zero_add]
    rw [wrapInt_of_range _ (by omega) (by omega)]
    simp

theorem SliceAt_neg {α : Type u} (v : List α) (k : Nat) (hk1 : 1 ≤ k) (hk : k ≤ v.length)
    (hb : v.length < 2 ^ 63) : SliceAt v (-(k : Int)) = v[v.length - k]? := by
  unfold SliceAt
  rw [SliceIdx_neg v k hk1 hk hb]
  have h1 : (0 : Int) ≤ (v.length : Int) - k ∧ (v.length : Int) - k < v.length := by omega
  have h2 : ((v.length : Int) - k).toNat = v.length - k := by omega
  simp only [h1, and_self, if_true, h2]

theorem idx_of_nat (i : Nat) (hi : i + 1 < 2 ^ 63) :
    wrapInt (-(wrapInt ((i : Int) + 1))) = -(((i + 1 : Nat)) : Int) := by
  have hI : (i : Int) + 1 < 2 ^ 63 := by exact_mod_cast hi
  rw [wrapInt_of_range ((i : Int) + 1) (by omega) (by omega)]
  rw [wrapInt_of_range _ (by omega) (by omega)]
  push_cast; rfl

/-- The loop of `IsEndsWith` over the positions `i, i+1, ..., len(ends)-1` compares the
reversed slices from position `i` on. -/
theorem IsEndsWith_loop_eq {α : Type u} [DecidableEq α] (source ends : List α)
    (hle : ends.length ≤ source.length) (hb : source.length < 2 ^ 63) :
    ∀ (n i : Nat), i + n = ends.length →
      IsEndsWith.loop source ends (List.range' i n)
        = some (decide (ends.reverse.drop i <+: source.reverse.drop i)) := by
  intro n
  induction n with
  | zero =>
    intro i hi
    have : ends.reverse.drop i = [] := by
      apply List.drop_eq_nil_of_le; simp; omega
    simp [List.range', IsEndsWith.loop, this]
  | succ n ih =>
    intro i hi
    have hie : i < ends.length := by omega
    have his : i < source.length := by omega
    rw [List.range'_succ]
    unfold IsEndsWith.loop
    simp only
    rw [idx_of_nat i (by omega)]
    rw [SliceAt_neg ends (i + 1) (by omega) (by omega) (by omega)]
    rw [SliceAt_neg source (i + 1) (by omega) (by omega) hb]
    have he : ends.length - (i + 1) < ends.length := by omega
    have hs : source.length - (i + 1) < source.length := by omega
    rw [List.getElem?_eq_getElem he, List.getElem?_eq_getElem hs]
    simp only
    have hre : i < ends.reverse.length := by simpa using hie
    have hrs : i < source.reverse.length := by simpa using his
    rw [List.drop_eq_getElem_cons hre, List.drop_eq_getElem_cons hrs]
    simp only [List.cons_prefix_cons, List.getElem_reverse]
    have e1 : ends.length - 1 - i = ends.length - (i + 1) := by omega
    have e2 : source.length - 1 - i = source.length - (i + 1) := by omega
    simp only [e1, e2]
    by_cases hEq : ends[ends.length - (i + 1)] = source[source.length - (i + 1)]
    · simp only [hEq, ne_eq, not_true_eq_false, if_false, true_and]
      exact ih (i + 1) (by omega)
    · simp [hEq]

/-- Within the length a Go slice can have, `IsEndsWith` returns, and returns `true`
exactly for a non-empty `ends` that is a suffix of `source`. -/
theorem IsEndsWith_eq {α : Type u} [DecidableEq α] (source ends : List α)
    (hb : source.length < 2 ^ 63) :
    IsEndsWith source ends = some (decide (ends ≠ [] ∧ ends <:+ source)) := by
  unfold IsEndsWith
  by_cases h1 : ends.length > source.length
  · have : ¬ ends <:+ source := fun h => by have := h.length_le; omega
    simp [h1, this]
  · by_cases h2 : ends.length = 0 ∨ source.length = 0
    · have : ends = [] := by
        rcases h2 with h | h
        · exact List.length_eq_zero.mp h
        · exact List.length_eq_zero.mp (by omega)
      simp [this]
    · rw [if_neg h1, if_neg h2, List.range_eq_range']
      rw [IsEndsWith_loop_eq source ends (by omega) hb ends.length 0 (by omega)]
      have hne : ends ≠ [] := fun h => h2 (Or.inl (by simp [h]))
      simp [hne, List.reverse_prefix]

/-! ## The reader, byte by byte -/

/-- One byte of the reader, within the length a Go slice can have. -/
theorem step_eq {ε σ : Type} (sep : List Byte) (f : List Byte → σ → Option ε × σ)
    (r : Byte) (buff : List Byte) (s : σ) (hb : buff.length + 1 < 2 ^ 63) :
    IterateFileBySeparator.step sep f r (buff, s) =
      if sep ≠ [] ∧ sep <:+ buff ++ [r] then
        some ((f ((buff ++ [r]).take ((buff ++ [r]).length - sep.length)) s).1,
          (([] : List Byte), (f ((buff ++ [r]).take ((buff ++ [r]).length - sep.length)) s).2))
      else some (none, (buff ++ [r], s)) := by
  have hlen : (buff ++ [r]).length < 2 ^ 63 := by simpa using hb
  unfold IterateFileBySeparator.step
  simp only
  rw [IsEndsWith_eq (buff ++ [r]) sep hlen]
  by_cases h : sep ≠ [] ∧ sep <:+ buff ++ [r]
  · obtain ⟨hne, hsuf⟩ := h
    have hk : sep.length ≤ (buff ++ [r]).length := hsuf.length_le
    have hk1 : 1 ≤ sep.length := by
      rcases sep with _ | ⟨a, l⟩
      · exact absurd rfl hne
      · simp
    have hw : wrapInt (-(sep.length : Int)) = -(sep.length : Int) := by
      have : (sep.length : Int) < 2 ^ 63 := by
        have := lt_of_le_of_lt hk hlen
        exact_mod_cast this
      exact wrapInt_of_range _ (by omega) (by omega)
    have hne0 : (buff ++ [r]).length ≠ 0 := by simp
    have h1 : (0 : Int) ≤ ((buff ++ [r]).length : Int) - sep.length
        ∧ ((buff ++ [r]).length : Int) - sep.length ≤ (buff ++ [r]).length := by omega
    have h2 : (((buff ++ [r]).length : Int) - sep.length).toNat
        = (buff ++ [r]).length - sep.length := by omega
    simp only [hne, hsuf, ne_eq, not_false_eq_true, and_self, decide_True, if_true, hne0, if_false,
      hw, SliceIdx_neg (buff ++ [r]) sep.length hk1 hk hlen, h1, h2]
  · simp only [h, decide_False, if_false]

/-- The loop of `IterateFileBytes`, driven by the closure of the reader, calls `f` on
the chunks cut at the matches, in order, up to the first error. -/
theorem loop_step_eq {ε σ : Type} (sep : List Byte) (f : List Byte → σ → Option ε × σ) :
    ∀ (rest buff : List Byte) (s : σ), buff.length + rest.length < 2 ^ 63 →
      IterateFileBytes.loop (IterateFileBySeparator.step sep f) rest none (buff, s) =
        some (match callSeq f (splitAcc sep rest buff).1 s with
          | (some e, s') => (some e, (([] : List Byte), s'))
          | (none, s') => (none, ((splitAcc sep rest buff).2, s'))) := by
  intro rest
  induction rest with
  | nil => intro buff s _; simp [IterateFileBytes.loop, splitAcc, callSeq]
  | cons b rest ih =>
    intro buff s hb
    simp only [List.length_cons] at hb
    unfold IterateFileBytes.loop
    rw [step_eq sep f b buff s (by omega)]
    by_cases h : sep ≠ [] ∧ sep <:+ buff ++ [b]
    · rw [if_pos h]
      simp only [splitAcc, if_pos h, callSeq]
      rcases hf : f ((buff ++ [b]).take ((buff ++ [b]).length - sep.length)) s with ⟨err, s'⟩
      cases err with
      | some e => simp
      | none =>
        simp only
        rw [ih [] s' (by simp; omega)]
    · rw [if_neg h]
      simp only [splitAcc, if_neg h]
      rw [ih (buff ++ [b]) s (by simp; omega)]

theorem callSeq_append {ε σ : Type} (f : List Byte → σ → Option ε × σ) :
    ∀ (l₁ l₂ : List (List Byte)) (s : σ),
      callSeq f (l₁ ++ l₂) s =
        match callSeq f l₁ s with
        | (some e, s') => (some e, s')
        | (none, s') => callSeq f l₂ s' := by
  intro l₁
  induction l₁ with
  | nil => intro l₂ s; simp [callSeq]
  | cons c l₁ ih =>
    intro l₂ s
    simp only [List.cons_append, callSeq]
    rcases hf : f c s with ⟨err, s'⟩
    cases err with
    | some e => simp
    | none => simp only; exact ih l₂ s'

/-- The reader on a file that opens, reads and closes without error: `f` is called on
the chunks of `chunksOf`, in order, up to the first error, which is returned. -/
theorem IterateFileBySeparator_eq {ε σ : Type} (joinErr : ε → ε → ε) (sep S : List Byte)
    (f : List Byte → σ → Option ε × σ) (s : σ) (hb : S.length < 2 ^ 63) :
    IterateFileBySeparator joinErr (File.ofContent S) sep f s
      = some (callSeq f (chunksOf sep S) s) := by
  unfold IterateFileBySeparator IterateFileBytes
  simp only [File.ofContent]
  rw [loop_step_eq sep f S [] s (by simpa using hb)]
  unfold chunksOf
  rw [callSeq_append]
  rcases hc : callSeq f (splitAcc sep S []).1 s with ⟨err, s'⟩
  cases err with
  | some e => simp [multierrAppend]
  | none =>
    by_cases ht : (splitAcc sep S []).2 = []
    · simp [multierrAppend, ht, callSeq]
    · have : (splitAcc sep S []).2.length > 0 := List.length_pos.mpr ht
      simp only [multierrAppend, this, if_true, ht, if_false, callSeq]
      rcases f (splitAcc sep S []).2 s' with ⟨err2, s2⟩
      cases err2 <;> rfl

/-! ## The chunks as a function of the content -/

/-- Nothing is lost: the accumulator and the bytes still to read are the chunks cut at
the matches, each followed by the separator, then the accumulator left at the end. -/
theorem splitAcc_flatten (sep : List Byte) :
    ∀ (x buff : List Byte),
      buff ++ x = (((splitAcc sep x buff).1.map (fun m => m ++ sep)).flatten)
        ++ (splitAcc sep x buff).2 := by
  intro x
  induction x with
  | nil => intro buff; simp [splitAcc]
  | cons b rest ih =>
    intro buff
    by_cases h : sep ≠ [] ∧ sep <:+ buff ++ [b]
    · have hcut : (buff ++ [b]).take ((buff ++ [b]).length - sep.length) ++ sep = buff ++ [b] := by
        have h2 := List.suffix_iff_eq_drop.mp h.2
        calc (buff ++ [b]).take ((buff ++ [b]).length - sep.length) ++ sep
            = (buff ++ [b]).take ((buff ++ [b]).length - sep.length)
                ++ (buff ++ [b]).drop ((buff ++ [b]).length - sep.length) := by rw [← h2]
          _ = buff ++ [b] := List.take_append_drop _ _
      have hrest := ih []
      simp only [List.nil_append] at hrest
      simp only [splitAcc, if_pos h, List.map_cons, List.flatten_cons, List.append_assoc]
      rw [← hrest, ← List.append_assoc, hcut]
      simp
    · simp only [splitAcc, if_neg h]
      rw [← ih (buff ++ [b])]
      simp

/-- When no prefix of the bytes read ends with the separator, nothing is cut. -/
theorem splitAcc_no_match (sep : List Byte) :
    ∀ (x buff : List Byte),
      (∀ p, p <+: buff ++ x → buff.length < p.length → ¬ (sep ≠ [] ∧ sep <:+ p)) →
      splitAcc sep x buff = ([], buff ++ x) := by
  intro x
  induction x with
  | nil => intro buff _; simp [splitAcc]
  | cons b rest ih =>
    intro buff h
    have h1 : ¬ (sep ≠ [] ∧ sep <:+ buff ++ [b]) := by
      apply h
      · exact ⟨rest, by simp⟩
      · simp
    simp only [splitAcc, if_neg h1]
    rw [ih (buff ++ [b])]
    · simp
    · intro p hp hlen
      apply h p
      · simpa using hp
      · simp at hlen; omega

theorem splitAcc_nil_sep (x buff : List Byte) : splitAcc [] x buff = ([], buff ++ x) :=
  splitAcc_no_match [] x buff (fun _ _ _ h => h.1 rfl)

theorem splitAcc_no_infix (sep S : List Byte) (h : ¬ sep <:+: S) :
    splitAcc sep S [] = ([], S) := by
  have := splitAcc_no_match sep S [] (fun p hp _ hs => h (List.IsInfix.trans hs.2.isInfix hp.isInfix))
  simpa using this

/-- A piece followed by the separator, in which the separator occurs only at the end,
is cut exactly at its end. -/
theorem splitAcc_piece (sep c : List Byte) (hsep : sep ≠ [])
    (hc : ∀ l r, c ++ sep = l ++ sep ++ r → r = []) (rest : List Byte) :
    ∀ (x buff : List Byte), x ≠ [] → buff ++ x = c ++ sep →
      splitAcc sep (x ++ rest) buff = (c :: (splitAcc sep rest []).1, (splitAcc sep rest []).2) := by
  intro x
  induction x with
  | nil => intro buff h; exact absurd rfl h
  | cons b x ih =>
    intro buff _ hbx
    by_cases hx : x = []
    · subst hx
      have hm : sep ≠ [] ∧ sep <:+ buff ++ [b] := ⟨hsep, ⟨c, hbx.symm⟩⟩
      simp only [List.cons_append, List.nil_append, splitAcc, if_pos hm]
      rw [hbx]
      simp
    · have hm : ¬ (sep ≠ [] ∧ sep <:+ buff ++ [b]) := by
        rintro ⟨_, l, hl⟩
        apply hx
        apply hc l x
        rw [← hbx, hl]
        simp
      simp only [List.cons_append, splitAcc, if_neg hm]
      exact ih (buff ++ [b]) hx (by rw [← hbx]; simp)

/-- The content made of pieces, each followed by the separator, and a last piece. -/
theorem splitAcc_pieces (sep : List Byte) (hsep : sep ≠ []) (last : List Byte)
    (hlast : ¬ sep <:+: last) :
    ∀ (init : List (List Byte)), (∀ c ∈ init, ∀ l r, c ++ sep = l ++ sep ++ r → r = []) →
      splitAcc sep ((init.map (fun c => c ++ sep)).flatten ++ last) [] = (init, last) := by
  intro init
  induction init with
  | nil => intro _; simpa using splitAcc_no_infix sep last hlast
  | cons c init ih =>
    intro h
    have hne : c ++ sep ≠ [] := by simp [hsep]
    have := splitAcc_piece sep c hsep (h c (by simp))
      ((init.map (fun c => c ++ sep)).flatten ++ last) (c ++ sep) [] hne (by simp)
    simp only [List.map_cons, List.flatten_cons, List.append_assoc] at this ⊢
    rw [this, ih (fun c hc => h c (by simp [hc]))]

theorem intercalate_concat (sep : List Byte) (last : List Byte) :
    ∀ (init : List (List Byte)),
      List.intercalate sep (init ++ [last]) = (init.map (fun c => c ++ sep)).flatten ++ last := by
  intro init
  induction init with
  | nil => simp [List.intercalate]
  | cons c init ih =>
    have hcons : ∀ (d : List Byte) (l : List (List Byte)),
        List.intercalate sep (c :: d :: l) = c ++ sep ++ List.intercalate sep (d :: l) := by
      intro d l; simp [List.intercalate]
    cases init with
    | nil => simp [List.intercalate]
    | cons d init =>
      rw [List.cons_append, List.cons_append, hcons, ← List.cons_append, ih]
      simp

/-- When the accumulator is empty at the end, either nothing was read or the bytes
read end with the separator. -/
theorem splitAcc_empty_acc (sep : List Byte) :
    ∀ (x buff : List Byte), (splitAcc sep x buff).2 = [] →
      (x = [] ∧ buff = []) ∨ (sep ≠ [] ∧ sep <:+ buff ++ x) := by
  intro x
  induction x with
  | nil => intro buff h; left; exact ⟨rfl, by simpa [splitAcc] using h⟩
  | cons b rest ih =>
    intro buff h
    right
    by_cases hm : sep ≠ [] ∧ sep <:+ buff ++ [b]
    · simp only [splitAcc, if_pos hm] at h
      refine ⟨hm.1, ?_⟩
      rcases ih [] h with ⟨hr, _⟩ | ⟨_, hs⟩
      · subst hr; exact hm.2
      · have h3 : sep <:+ buff ++ ([b] ++ rest) := by
          simp only [List.nil_append] at hs
          exact hs.trans ⟨buff ++ [b], by simp⟩
        simpa using h3
    · simp only [splitAcc, if_neg hm] at h
      rcases ih (buff ++ [b]) h with ⟨_, hb⟩ | hs
      · simp at hb
      · simpa using hs

/-! ## Sequences of calls -/

theorem callSeq_of_succeeds {ε σ : Type} (f : List Byte → σ → Option ε × σ)
    (hf : ∀ c st, (f c st).1 = none) :
    ∀ (l : List (List Byte)) (s : σ),
      callSeq f l s = (none, l.foldl (fun st c => (f c st).2) s) := by
  intro l
  induction l with
  | nil => intro s; rfl
  | cons c l ih =>
    intro s
    have h := hf c s
    rcases hfc : f c s with ⟨err, s'⟩
    rw [hfc] at h
    simp only at h
    subst h
    simp only [callSeq, hfc, List.foldl_cons]
    exact ih s'

theorem callSeq_record {ε : Type} :
    ∀ (l received : List (List Byte)),
      callSeq (record : List Byte → List (List Byte) → Option ε × List (List Byte)) l received
        = (none, received ++ l) := by
  intro l
  induction l with
  | nil => intro received; simp [callSeq]
  | cons c l ih => intro received; simp [callSeq, record, ih]

theorem callSeq_noting {ε σ : Type} (f : List Byte → σ → Option ε × σ) :
    ∀ (l : List (List Byte)) (s s1 : σ) (received : List (List Byte)),
      callSeq f l s = (none, s1) →
      callSeq (noting f) l (s, received) = (none, (s1, received ++ l)) := by
  intro l
  induction l with
  | nil =>
    intro s s1 received h
    simp only [callSeq, Prod.mk.injEq, true_and] at h
    simp [callSeq, h]
  | cons c l ih =>
    intro s s1 received h
    rcases hfc : f c s with ⟨err, s'⟩
    cases err with
    | some e => simp [callSeq, hfc] at h
    | none =>
      simp only [callSeq, hfc] at h
      simp only [callSeq, noting, hfc]
      rw [ih s' s1 (received ++ [c]) h]
      simp

/-- The calls stop at the first failing one. -/
theorem callSeq_fail_at {ε σ : Type} (f : List Byte → σ → Option ε × σ)
    (l : List (List Byte)) (k : Nat) (c : List Byte) (s s1 s2 : σ) (e : ε)
    (hk : l[k]? = some c) (hprev : callSeq f (l.take k) s = (none, s1))
    (hfail : f c s1 = (some e, s2)) : callSeq f l s = (some e, s2) := by
  have hlt : k < l.length := by
    by_contra hge
    rw [List.getElem?_eq_none (by omega)] at hk
    exact absurd hk (by simp)
  have hc : l[k] = c := by
    rw [List.getElem?_eq_getElem hlt] at hk
    exact Option.some.inj hk
  have hsplit : l = l.take k ++ c :: l.drop (k + 1) := by
    rw [← hc, ← List.drop_eq_getElem_cons hlt, List.take_append_drop]
  rw [hsplit, callSeq_append, hprev]
  simp [callSeq, hfail]

theorem only_at_end_of_take (sep x : List Byte)
    (h : ∀ n < x.length, ¬ sep <:+ x.take n) : ∀ l r, x = l ++ sep ++ r → r = [] := by
  intro l r hx
  by_contra hr
  have hlen : (l ++ sep).length < x.length := by
    rw [hx]
    have : 0 < r.length := List.length_pos.mpr hr
    simp only [List.length_append] at *
    omega
  apply h (l ++ sep).length hlen
  rw [hx, List.take_left]
  exact ⟨l, rfl⟩

theorem chunksOf_eq_delivered {ε : Type} (joinErr : ε → ε → ε) (sep S : List Byte)
    (delivered : List (List Byte)) (hb : S.length < 2 ^ 63)
    (hd : IterateFileBySeparator joinErr (File.ofContent S) sep record [] = some (none, delivered)) :
    chunksOf sep S = delivered := by
  rw [IterateFileBySeparator_eq joinErr sep S record [] hb, callSeq_record] at hd
  simpa using hd

/-! ## The claims -/

/-- C1: within the length a Go slice can have, `IsEndsWith(source, ends)` returns a
value (it never faults), the value is `true` if and only if `ends` is non-empty,
`len(ends) ≤ len(source)` and the last `len(ends)` elements of `source` are `ends`,
and it is `false` whenever `ends` is longer than `source` or either one is empty. -/
theorem IsEndsWith_true_iff {α : Type u} [DecidableEq α] (source ends : List α)
    (hb : source.length < 2 ^ 63) :
    (∃ b, IsEndsWith source ends = some b) ∧
    (IsEndsWith source ends = some true ↔
      ends ≠ [] ∧ ends.length ≤ source.length
        ∧ source.drop (source.length - ends.length) = ends) ∧
    (source.length < ends.length ∨ ends = [] ∨ source = [] →
      IsEndsWith source ends = some false) := by
  have hsuf : ends <:+ source ↔
      ends.length ≤ source.length ∧ source.drop (source.length - ends.length) = ends := by
    constructor
    · intro h
      exact ⟨h.length_le, (List.suffix_iff_eq_drop.mp h).symm⟩
    · intro h
      exact List.suffix_iff_eq_drop.mpr h.2.symm
  rw [IsEndsWith_eq source ends hb]
  refine ⟨⟨_, rfl⟩, ?_, ?_⟩
  · simp only [Option.some.injEq, decide_eq_true_eq, hsuf]
  · intro h
    have : ¬ (ends ≠ [] ∧ ends <:+ source) := by
      rintro ⟨hne, hs⟩
      have hl := hs.length_le
      rcases h with h | h | h
      · omega
      · exact hne h
      · subst h
        have : ends.length = 0 := by simpa using hl
        exact hne (List.length_eq_zero.mp this)
    simp only [this, decide_False]

/-- An instance of C1: `[1, 2, 3]` ends with `[2, 3]`. -/
theorem IsEndsWith_true_iff_witness : IsEndsWith ([1, 2, 3] : List Nat) [2, 3] = some true :=
  (IsEndsWith_true_iff ([1, 2, 3] : List Nat) [2, 3] (by decide)).2.1.mpr (by decide)

/-- C2: for a non-empty separator and pieces `c1, ..., cn` (`n ≥ 1`) such that `cn` does
not contain the separator and the separator occurs in each `ci ++ sep`, `i < n`, only
as its final elements, the reader on `c1 ++ sep ++ ... ++ sep ++ cn`, with a callback
that always succeeds, returns no error after calling it on `c1, ..., cn` in that order
when `cn` is not empty, and on `c1, ..., c(n-1)` when it is. -/
theorem IterateFileBySeparator_pieces {ε σ : Type} (joinErr : ε → ε → ε) (sep : List Byte)
    (pieces : List (List Byte)) (f : List Byte → σ → Option ε × σ) (s : σ)
    (hsep : sep ≠ []) (hne : pieces ≠ [])
    (hlast : ¬ sep <:+: pieces.getLast hne)
    (hinit : ∀ c ∈ pieces.dropLast, ∀ l r, c ++ sep = l ++ sep ++ r → r = [])
    (hb : (List.intercalate sep pieces).length < 2 ^ 63)
    (hf : ∀ c st, (f c st).1 = none) :
    IterateFileBySeparator joinErr (File.ofContent (List.intercalate sep pieces)) sep f s =
      some (none, (if pieces.getLast hne = [] then pieces.dropLast else pieces).foldl
        (fun st c => (f c st).2) s) := by
  rw [IterateFileBySeparator_eq joinErr sep _ f s hb, callSeq_of_succeeds f hf]
  have hp : pieces = pieces.dropLast ++ [pieces.getLast hne] :=
    (List.dropLast_append_getLast hne).symm
  have hi : List.intercalate sep pieces
      = ((pieces.dropLast).map (fun c => c ++ sep)).flatten ++ pieces.getLast hne := by
    conv_lhs => rw [hp]
    exact intercalate_concat sep _ _
  have hs := splitAcc_pieces sep hsep (pieces.getLast hne) hlast pieces.dropLast hinit
  have hc : chunksOf sep (List.intercalate sep pieces)
      = if pieces.getLast hne = [] then pieces.dropLast else pieces := by
    unfold chunksOf
    rw [hi, hs]
    by_cases hl : pieces.getLast hne = []
    · simp [hl]
    · simp only [hl, if_false]
      exact hp.symm
  rw [hc]

/-- The scenario of C2: the content `a,b,,c` with the separator `,` gives the chunks
`a`, `b`, the empty chunk and `c`. -/
theorem IterateFileBySeparator_pieces_witness :
    IterateFileBySeparator joinMsg (File.ofContent (bytes "a,b,,c")) (bytes ",") record [] =
      some (none, [bytes "a", bytes "b", bytes "", bytes "c"]) :=
  IterateFileBySeparator_pieces joinMsg (bytes ",") [bytes "a", bytes "b", bytes "", bytes "c"]
    record [] (by decide) (by decide) (by decide)
    (fun c hc => only_at_end_of_take (bytes ",") (c ++ bytes ",")
      ((by decide : ∀ c ∈ [bytes "a", bytes "b", bytes ""], ∀ n < (c ++ bytes ",").length,
          ¬ bytes "," <:+ (c ++ bytes ",").take n) c hc))
    (by decide) (fun _ _ => rfl)

/-- The reader on the content `a,b,` with the separator `,`, evaluated. -/
theorem run_trailing_sep :
    IterateFileBySeparator joinMsg (File.ofContent (bytes "a,b,")) (bytes ",") record []
      = some (none, [bytes "a", bytes "b"]) := by
  decide

/-- C3, as the specification states it, does not hold: on the content `a,b,` with the
separator `,` the callback does not receive the three chunks `a`, `b` and the empty
chunk. -/
theorem IterateFileBySeparator_trailing_sep_counterexample :
    ¬ ∃ err, IterateFileBySeparator joinMsg (File.ofContent (bytes "a,b,")) (bytes ",") record []
      = some (err, [bytes "a", bytes "b", bytes ""]) := by
  rintro ⟨err, h⟩
  rw [run_trailing_sep] at h
  simp at h

/-- C3, amended: on the content `a,b,` with the separator `,` the reader returns no
error after calling the callback exactly twice, on `a` and then on `b`; the empty
accumulator left at end-of-file is not delivered. -/
theorem IterateFileBySeparator_trailing_sep :
    IterateFileBySeparator joinMsg (File.ofContent (bytes "a,b,")) (bytes ",") record []
      = some (none, [bytes "a", bytes "b"]) := by
  decide

/-- C4: the chunks `ms` cut at the separator matches and the accumulator `t` left at
end-of-file (delivered as a last chunk exactly when it is not empty) account for every
byte of the content `S` once: `S` is each chunk of `ms` followed by the separator,
then `t`. -/
theorem IterateFileBySeparator_accounts {ε : Type} (joinErr : ε → ε → ε) (sep S : List Byte)
    (hb : S.length < 2 ^ 63) :
    ∃ (ms : List (List Byte)) (t : List Byte),
      IterateFileBytes joinErr (File.ofContent S) (IterateFileBySeparator.step sep record)
          (([] : List Byte), ([] : List (List Byte))) = some (none, (t, ms))
      ∧ IterateFileBySeparator joinErr (File.ofContent S) sep record []
          = some (none, ms ++ (if t = [] then [] else [t]))
      ∧ S = (ms.map (fun m => m ++ sep)).flatten ++ t := by
  refine ⟨(splitAcc sep S []).1, (splitAcc sep S []).2, ?_, ?_, ?_⟩
  · unfold IterateFileBytes
    simp only [File.ofContent]
    rw [loop_step_eq sep record S [] [] (by simpa using hb), callSeq_record]
    simp [multierrAppend]
  · rw [IterateFileBySeparator_eq joinErr sep S record [] hb, callSeq_record]
    simp [chunksOf]
  · simpa using splitAcc_flatten sep S []

/-- An instance of C4: the content `ab--cd--e` with the separator `--`. -/
theorem IterateFileBySeparator_accounts_witness :
    ∃ (ms : List (List Byte)) (t : List Byte),
      IterateFileBytes joinMsg (File.ofContent (bytes "ab--cd--e"))
          (IterateFileBySeparator.step (bytes "--") record)
          (([] : List Byte), ([] : List (List Byte))) = some (none, (t, ms))
      ∧ IterateFileBySeparator joinMsg (File.ofContent (bytes "ab--cd--e")) (bytes "--") record []
          = some (none, ms ++ (if t = [] then [] else [t]))
      ∧ bytes "ab--cd--e" = (ms.map (fun m => m ++ bytes "--")).flatten ++ t :=
  IterateFileBySeparator_accounts joinMsg (bytes "--") (bytes "ab--cd--e") (by decide)

/-- C5, as the specification states it, does not hold: the content `a,b,` neither
starts nor ends with a partial fragment of the separator `,` (a one-byte separator
has none), and the chunks delivered, joined with the separator, are `a,b`. -/
theorem roundtrip_counterexample :
    (∀ frag : List Byte, frag ≠ [] → frag ≠ bytes "," →
        (frag <+: bytes "," ∨ frag <:+ bytes ",") →
        ¬ frag <+: bytes "a,b," ∧ ¬ frag <:+ bytes "a,b,")
    ∧ ∃ chunks, IterateFileBySeparator joinMsg (File.ofContent (bytes "a,b,")) (bytes ",") record []
          = some (none, chunks)
        ∧ List.intercalate (bytes ",") chunks ≠ bytes "a,b," := by
  refine ⟨?_, [bytes "a", bytes "b"], run_trailing_sep, by decide⟩
  intro frag hne hns hfrag
  exfalso
  have hlen : frag.length ≤ 1 := by
    rcases hfrag with h | h
    · exact h.length_le
    · exact h.length_le
  have hpos : 0 < frag.length := List.length_pos.mpr hne
  have h1 : frag.length = (bytes ",").length := by
    have : (bytes ",").length = 1 := by decide
    omega
  rcases hfrag with h | h
  · exact hns (h.eq_of_length h1)
  · exact hns (h.eq_of_length h1)

/-- C5, amended: when the separator is empty or the content `S` does not end with the
separator, the chunks delivered, joined with the separator, are `S`; and in every
case they are `S`, or `S` without a final separator. -/
theorem roundtrip_amended {ε : Type} (joinErr : ε → ε → ε) (sep S : List Byte)
    (hb : S.length < 2 ^ 63) :
    ∃ chunks, IterateFileBySeparator joinErr (File.ofContent S) sep record []
        = some (none, chunks)
      ∧ ((sep = [] ∨ ¬ sep <:+ S) → List.intercalate sep chunks = S)
      ∧ (List.intercalate sep chunks = S ∨ List.intercalate sep chunks ++ sep = S) := by
  refine ⟨chunksOf sep S, ?_, ?_⟩
  · rw [IterateFileBySeparator_eq joinErr sep S record [] hb, callSeq_record]; simp
  have hflat := splitAcc_flatten sep S []
  simp only [List.nil_append] at hflat
  by_cases ht : (splitAcc sep S []).2 = []
  · -- the accumulator is empty at end-of-file
    have hch : chunksOf sep S = (splitAcc sep S []).1 := by simp [chunksOf, ht]
    rcases splitAcc_empty_acc sep S [] ht with ⟨hS, _⟩ | ⟨hsep, hsuf⟩
    · subst hS
      have : chunksOf sep [] = [] := by simp [chunksOf, splitAcc]
      rw [this]
      exact ⟨fun _ => by simp [List.intercalate], Or.inl (by simp [List.intercalate])⟩
    · simp only [List.nil_append] at hsuf
      rw [hch]
      constructor
      · rintro (h | h)
        · exact absurd h hsep
        · exact absurd hsuf h
      · right
        rcases hms : (splitAcc sep S []).1 with _ | ⟨m, ms⟩
        · rw [hms, ht] at hflat
          simp only [List.map_nil, List.flatten_nil, List.append_nil] at hflat
          subst hflat
          have : sep.length ≤ 0 := by simpa using hsuf.length_le
          exact absurd (List.length_eq_zero.mp (by omega)) hsep
        · rw [hms, ht] at hflat
          have hdl : m :: ms = (m :: ms).dropLast ++ [(m :: ms).getLast (by simp)] :=
            (List.dropLast_append_getLast _).symm
          rw [hdl, intercalate_concat, hflat]
          conv_rhs => rw [hdl]
          simp
  · have hch : chunksOf sep S = (splitAcc sep S []).1 ++ [(splitAcc sep S []).2] := by
      simp [chunksOf, ht]
    have : List.intercalate sep (chunksOf sep S) = S := by
      rw [hch, intercalate_concat, ← hflat]
    exact ⟨fun _ => this, Or.inl this⟩

/-- An instance of C5 amended: the content `a,b,,c` with the separator `,`. -/
theorem roundtrip_amended_witness :
    ∃ chunks, IterateFileBySeparator joinMsg (File.ofContent (bytes "a,b,,c")) (bytes ",") record []
        = some (none, chunks)
      ∧ List.intercalate (bytes ",") chunks = bytes "a,b,,c" := by
  obtain ⟨chunks, h1, h2, _⟩ := roundtrip_amended joinMsg (bytes ",") (bytes "a,b,,c") (by decide)
  exact ⟨chunks, h1, h2 (Or.inr (by decide))⟩

/-- C6: for a non-empty content `S` and a non-empty separator that does not occur in
`S`, the reader calls the callback exactly once, on the whole of `S`, and returns the
result of that call. -/
theorem IterateFileBySeparator_no_sep {ε σ : Type} (joinErr : ε → ε → ε) (sep S : List Byte)
    (f : List Byte → σ → Option ε × σ) (s : σ)
    (hS : S ≠ []) (_hsep : sep ≠ []) (hno : ¬ sep <:+: S) (hb : S.length < 2 ^ 63) :
    IterateFileBySeparator joinErr (File.ofContent S) sep f s = some (f S s)
    ∧ IterateFileBySeparator joinErr (File.ofContent S) sep (noting f) (s, [])
        = some ((f S s).1, ((f S s).2, [S])) := by
  have hc : chunksOf sep S = [S] := by
    simp [chunksOf, splitAcc_no_infix sep S hno, hS]
  constructor
  · rw [IterateFileBySeparator_eq joinErr sep S f s hb, hc]
    simp only [callSeq]
    rcases f S s with ⟨err, s'⟩
    cases err <;> rfl
  · rw [IterateFileBySeparator_eq joinErr sep S (noting f) (s, []) hb, hc]
    simp only [callSeq, noting]
    rcases f S s with ⟨err, s'⟩
    cases err <;> rfl

/-- An instance of C6: the content `abc` with the separator `--`, and a callback that
fails. -/
theorem IterateFileBySeparator_no_sep_witness :
    IterateFileBySeparator joinMsg (File.ofContent (bytes "abc")) (bytes "--")
        (noting (fun (_ : List Byte) (n : Nat) => (some "full", n + 1))) (0, [])
      = some (some "full", (1, [bytes "abc"])) :=
  (IterateFileBySeparator_no_sep joinMsg (bytes "--") (bytes "abc")
    (fun (_ : List Byte) (n : Nat) => (some "full", n + 1)) 0
    (by decide) (by decide) (by decide) (by decide)).2

/-- C7: on an empty file the reader returns no error and leaves the state of the
callback as it was, that is, it does not call it; for every separator, the empty one
included, and every callback. -/
theorem IterateFileBySeparator_empty {ε σ : Type} (joinErr : ε → ε → ε) (sep : List Byte)
    (f : List Byte → σ → Option ε × σ) (s : σ) :
    IterateFileBySeparator joinErr (File.ofContent []) sep f s = some (none, s)
    ∧ IterateFileBySeparator joinErr (File.ofContent []) sep (noting f) (s, [])
        = some (none, (s, [])) := by
  constructor <;> rfl

/-- C8: let `delivered` be the chunks a callback that always succeeds receives. If the
first `k` calls of `f`, on the first `k` chunks of `delivered`, succeed, and the next
call, on the chunk `c` at position `k`, fails with the error `e`, then the reader
returns exactly `e`, and `f` has been called exactly `k + 1` times, on the first
`k + 1` chunks of `delivered`, in order. -/
theorem IterateFileBySeparator_callback_error {ε σ : Type} (joinErr : ε → ε → ε)
    (sep S : List Byte) (f : List Byte → σ → Option ε × σ) (s0 : σ)
    (delivered : List (List Byte)) (k : Nat) (c : List Byte) (s1 s2 : σ) (e : ε)
    (hb : S.length < 2 ^ 63)
    (hd : IterateFileBySeparator joinErr (File.ofContent S) sep record []
      = some (none, delivered))
    (hk : delivered[k]? = some c)
    (hprev : callSeq f (delivered.take k) s0 = (none, s1))
    (hfail : f c s1 = (some e, s2)) :
    IterateFileBySeparator joinErr (File.ofContent S) sep f s0 = some (some e, s2)
    ∧ IterateFileBySeparator joinErr (File.ofContent S) sep (noting f) (s0, [])
        = some (some e, (s2, delivered.take (k + 1))) := by
  have hc := chunksOf_eq_delivered joinErr sep S delivered hb hd
  constructor
  · rw [IterateFileBySeparator_eq joinErr sep S f s0 hb, hc]
    exact congrArg some (callSeq_fail_at f delivered k c s0 s1 s2 e hk hprev hfail)
  · rw [IterateFileBySeparator_eq joinErr sep S (noting f) (s0, []) hb, hc]
    have hlt : k < delivered.length := by
      by_contra hge
      rw [List.getElem?_eq_none (by omega)] at hk
      exact absurd hk (by simp)
    have htake : delivered.take (k + 1) = delivered.take k ++ [c] := by
      rw [List.take_succ, hk]; rfl
    have h1 := callSeq_noting f (delivered.take k) s0 s1 [] hprev
    have h2 : noting f c (s1, [] ++ delivered.take k)
        = (some e, (s2, delivered.take (k + 1))) := by
      simp [noting, hfail, htake]
    exact congrArg some
      (callSeq_fail_at (noting f) delivered k c (s0, []) (s1, [] ++ delivered.take k)
        (s2, delivered.take (k + 1)) e hk h1 h2)

/-- An instance of C8: on the content `a,b,c` a callback that fails at its second call
has received `a` and `b`, and its error is returned. -/
theorem IterateFileBySeparator_callback_error_witness :
    IterateFileBySeparator joinMsg (File.ofContent (bytes "a,b,c")) (bytes ",")
        (noting (fun (_ : List Byte) (n : Nat) =>
          if n = 1 then (some "stop", n + 1) else (none, n + 1))) (0, [])
      = some (some "stop", (2, [bytes "a", bytes "b"])) :=
  (IterateFileBySeparator_callback_error joinMsg (bytes ",") (bytes "a,b,c")
    (fun (_ : List Byte) (n : Nat) => if n = 1 then (some "stop", n + 1) else (none, n + 1))
    0 [bytes "a", bytes "b", bytes "c"] 1 (bytes "b") 1 2 "stop"
    (by decide) (by decide) (by decide) (by decide) (by decide)).2

/-! ## Folds -/

theorem ReduceErr_loop_append {From To ε σ : Type}
    (fn : From → To → Int → σ → (To × Option ε) × σ) :
    ∀ (l₁ l₂ : List From) (i : Int) (acc : To) (s : σ),
      ReduceErr.loop fn (l₁ ++ l₂) i acc s =
        match ReduceErr.loop fn l₁ i acc s with
        | ((a, some e), s') => ((a, some e), s')
        | ((a, none), s') => ReduceErr.loop fn l₂ (i + l₁.length) a s' := by
  intro l₁
  induction l₁ with
  | nil => intro l₂ i acc s; simp [ReduceErr.loop]
  | cons x l₁ ih =>
    intro l₂ i acc s
    simp only [List.cons_append, ReduceErr.loop, List.append_eq]
    rcases hf : fn x acc i s with ⟨⟨a, err⟩, s'⟩
    cases err with
    | some e => simp
    | none =>
      simp only
      rw [ih l₂ (i + 1) a s']
      have : i + 1 + (l₁.length : Int) = i + ((x :: l₁).length : Int) := by
        simp only [List.length_cons]; push_cast; ring
      rw [this]

theorem ReduceErr_loop_single {From To ε σ : Type}
    (fn : From → To → Int → σ → (To × Option ε) × σ) (x : From) (i : Int) (acc : To) (s : σ) :
    ReduceErr.loop fn [x] i acc s = fn x acc i s := by
  simp only [ReduceErr.loop]
  rcases fn x acc i s with ⟨⟨a, err⟩, s'⟩
  cases err <;> rfl

/-- After a prefix folded without error, the fold goes on with the next element, at the
index that is the length of the prefix. -/
theorem ReduceErr_concat_ok {From To ε σ : Type}
    (fn : From → To → Int → σ → (To × Option ε) × σ) (l : List From) (x : From)
    (init a : To) (s s1 : σ) (h : ReduceErr l fn init s = ((a, none), s1)) :
    ReduceErr (l ++ [x]) fn init s = fn x a l.length s1 := by
  unfold ReduceErr at h ⊢
  rw [ReduceErr_loop_append, h]
  simp only [zero_add]
  exact ReduceErr_loop_single fn x _ a s1

/-- After an error the rest of the sequence is not visited. -/
theorem ReduceErr_stop {From To ε σ : Type}
    (fn : From → To → Int → σ → (To × Option ε) × σ) (l₁ l₂ : List From)
    (init a : To) (s s1 : σ) (e : ε) (h : ReduceErr l₁ fn init s = ((a, some e), s1)) :
    ReduceErr (l₁ ++ l₂) fn init s = ((a, some e), s1) := by
  unfold ReduceErr at h ⊢
  rw [ReduceErr_loop_append, h]

theorem ReduceErr_notingIdx_ok {From To ε σ : Type}
    (fn : From → To → Int → σ → (To × Option ε) × σ) (init : To) (s : σ) :
    ∀ (l : List From) (a : To) (s1 : σ), ReduceErr l fn init s = ((a, none), s1) →
      ReduceErr l (notingIdx fn) init (s, [])
        = ((a, none), (s1, (List.range l.length).map Int.ofNat)) := by
  intro l
  induction l using List.reverseRecOn with
  | nil =>
    intro a s1 h
    simp only [ReduceErr, ReduceErr.loop, Prod.mk.injEq, and_true] at h
    simp [ReduceErr, ReduceErr.loop, h.1, h.2]
  | append_singleton l x ih =>
    intro a s1 h
    rcases hl : ReduceErr l fn init s with ⟨⟨a0, err0⟩, s0'⟩
    cases err0 with
    | some e =>
      rw [ReduceErr_stop fn l [x] init a0 s s0' e hl] at h
      simp at h
    | none =>
      rw [ReduceErr_concat_ok fn l x init a0 s s0' hl] at h
      rw [ReduceErr_concat_ok (notingIdx fn) l x init a0 (s, []) _ (ih a0 s0' hl)]
      simp [notingIdx, h, List.range_succ]

theorem ReduceErr_never_fails {From To ε σ : Type}
    (fn : From → To → Int → σ → (To × Option ε) × σ)
    (hok : ∀ x a i s, (fn x a i s).1.2 = none) :
    ∀ (l : List From) (i : Int) (acc : To) (s : σ),
      ReduceErr.loop fn l i acc s =
        (((Reduce.loop (fun x a i s => ((fn x a i s).1.1, (fn x a i s).2)) l i acc s).1, none),
          (Reduce.loop (fun x a i s => ((fn x a i s).1.1, (fn x a i s).2)) l i acc s).2) := by
  intro l
  induction l with
  | nil => intro i acc s; rfl
  | cons x l ih =>
    intro i acc s
    have h := hok x acc i s
    rcases hf : fn x acc i s with ⟨⟨a, err⟩, s'⟩
    rw [hf] at h
    simp only at h
    subst h
    simp only [ReduceErr.loop, Reduce.loop, hf]
    exact ih (i + 1) a s'

theorem Reduce_loop_concat {From To σ : Type} (fn : From → To → Int → σ → To × σ) (x : From) :
    ∀ (l : List From) (i : Int) (acc : To) (s : σ),
      Reduce.loop fn (l ++ [x]) i acc s =
        fn x (Reduce.loop fn l i acc s).1 (i + l.length) (Reduce.loop fn l i acc s).2 := by
  intro l
  induction l with
  | nil => intro i acc s; simp [Reduce.loop]
  | cons y l ih =>
    intro i acc s
    simp only [List.cons_append, Reduce.loop, List.length_cons, List.append_eq]
    rw [ih (i + 1)]
    have : i + 1 + (l.length : Int) = i + ((l.length + 1 : Nat) : Int) := by push_cast; ring
    rw [this]

/-- C9: if the fold of the first `k` elements succeeds, with the value `a` and the
state `s1`, and `fn` fails at index `k`, returning the value `a'` and the error `e`,
then `ReduceErr` returns exactly `e`, its result is its result on the first `k + 1`
elements, and `fn` has been called exactly on the indices `0, ..., k`, in that order.
If `fn` never fails, the error is nil and the value is that of `Reduce`. -/
theorem ReduceErr_first_failure {From To ε σ : Type}
    (fn : From → To → Int → σ → (To × Option ε) × σ) (S : List From) (init : To) (s0 : σ) :
    (∀ (k : Nat) (x : From) (a a' : To) (s1 s2 : σ) (e : ε),
      S[k]? = some x →
      ReduceErr (S.take k) fn init s0 = ((a, none), s1) →
      fn x a k s1 = ((a', some e), s2) →
        ReduceErr S fn init s0 = ((a', some e), s2)
        ∧ ReduceErr S fn init s0 = ReduceErr (S.take (k + 1)) fn init s0
        ∧ ReduceErr S (notingIdx fn) init (s0, [])
            = ((a', some e), (s2, (List.range (k + 1)).map Int.ofNat)))
    ∧ ((∀ x a i s, (fn x a i s).1.2 = none) →
        ReduceErr S fn init s0 =
          (((Reduce S (fun x a i s => ((fn x a i s).1.1, (fn x a i s).2)) init s0).1, none),
            (Reduce S (fun x a i s => ((fn x a i s).1.1, (fn x a i s).2)) init s0).2)) := by
  constructor
  · intro k x a a' s1 s2 e hk hprev hfail
    have hlt : k < S.length := by
      by_contra hge
      rw [List.getElem?_eq_none (by omega)] at hk
      exact absurd hk (by simp)
    have htake : S.take (k + 1) = S.take k ++ [x] := by
      rw [List.take_succ, hk]; rfl
    have hlen : ((S.take k).length : Int) = k := by
      simp only [List.length_take]; congr 1; omega
    have hS : S = S.take (k + 1) ++ S.drop (k + 1) := (List.take_append_drop _ _).symm
    have h1 : ReduceErr (S.take (k + 1)) fn init s0 = ((a', some e), s2) := by
      rw [htake, ReduceErr_concat_ok fn (S.take k) x init a s0 s1 hprev, hlen, hfail]
    have h2 : ReduceErr S fn init s0 = ((a', some e), s2) := by
      conv_lhs => rw [hS]
      exact ReduceErr_stop fn _ _ init a' s0 s2 e h1
    refine ⟨h2, by rw [h1, h2], ?_⟩
    have hn := ReduceErr_notingIdx_ok fn init s0 (S.take k) a s1 hprev
    have h3 : ReduceErr (S.take (k + 1)) (notingIdx fn) init (s0, [])
        = ((a', some e), (s2, (List.range (k + 1)).map Int.ofNat)) := by
      rw [htake, ReduceErr_concat_ok (notingIdx fn) (S.take k) x init a (s0, []) _ hn, hlen]
      have : (S.take k).length = k := by simp only [List.length_take]; omega
      simp [notingIdx, hfail, List.range_succ, this]
    conv_lhs => rw [hS]
    exact ReduceErr_stop (notingIdx fn) _ _ init a' (s0, []) _ e h3
  · intro hok
    exact ReduceErr_never_fails fn hok S 0 init s0

/-- An instance of C9: summing `[5, 7, 9, 11]` with a function that fails at index 2. -/
theorem ReduceErr_first_failure_witness :
    ReduceErr [5, 7, 9, 11]
        (notingIdx (fun (x a : Nat) (i : Int) (_ : Unit) =>
          ((a + x, if i = 2 then some "odd" else none), ()))) 0 ((), [])
      = ((21, some "odd"), ((), [0, 1, 2]))
    ∧ ReduceErr [5, 7, 9, 11]
        (fun (x a : Nat) (_ : Int) (_ : Unit) => ((a + x, (none : Option String)), ())) 0 ()
      = ((32, none), ()) :=
  ⟨((ReduceErr_first_failure
      (fun (x a : Nat) (i : Int) (_ : Unit) => ((a + x, if i = 2 then some "odd" else none), ()))
      [5, 7, 9, 11] 0 ()).1 2 9 12 21 () () "odd" (by decide) (by decide) (by decide)).2.2,
   (ReduceErr_first_failure
      (fun (x a : Nat) (_ : Int) (_ : Unit) => ((a + x, (none : Option String)), ()))
      [5, 7, 9, 11] 0 ()).2 (fun _ _ _ _ => rfl)⟩

/-- C10: `Reduce` is the indexed left fold: on the empty sequence it returns the initial
value without calling `fn`, and on `S ++ [x]` it returns `fn(x, Reduce(S, fn, a), len(S))`,
called after the calls made for `S`. -/
theorem Reduce_left_fold {From To σ : Type} (fn : From → To → Int → σ → To × σ)
    (S : List From) (x : From) (a : To) (s : σ) :
    Reduce ([] : List From) fn a s = (a, s)
    ∧ Reduce (S ++ [x]) fn a s = fn x (Reduce S fn a s).1 S.length (Reduce S fn a s).2 := by
  refine ⟨rfl, ?_⟩
  unfold Reduce
  rw [Reduce_loop_concat, zero_add]

/-! ## Circular indexing on every index -/

theorem tmod_neg_eq (k l : Int) : Int.tmod (-k) l = -(Int.tmod k l) := by
  rw [Int.tmod_def, Int.tmod_def, Int.neg_tdiv]; ring

theorem tmod_bounds (i l : Int) (hl : 0 < l) : -l < Int.tmod i l ∧ Int.tmod i l < l := by
  rcases le_or_lt 0 i with h | h
  · have h1 := Int.tmod_nonneg l h
    have h2 := Int.tmod_lt_of_pos i hl
    omega
  · have h1 := Int.tmod_nonneg l (show 0 ≤ -i by omega)
    have h2 := Int.tmod_lt_of_pos (-i) hl
    have h3 := tmod_neg_eq (-i) l
    rw [neg_neg] at h3
    omega

theorem tmod_add_emod (i l : Int) : (Int.tmod i l + l) % l = i % l := by
  rw [Int.tmod_def]
  have : i - l * i.tdiv l + l = i + l * (1 - i.tdiv l) := by ring
  rw [this, Int.add_mul_emod_self_left]

/-- On a non-empty slice of at most `2 ^ 62` elements `SliceIdx` is the floor modulus. -/
theorem SliceIdx_of_le {α : Type u} (v : List α) (i : Int) (hne : v ≠ [])
    (hlen : v.length ≤ 2 ^ 62) : SliceIdx v i = some (i % (v.length : Int)) := by
  have hpos : 0 < v.length := List.length_pos.mpr hne
  have hl : (0 : Int) < v.length := by exact_mod_cast hpos
  have hl0 : (v.length : Int) ≠ 0 := by omega
  have hle : (v.length : Int) ≤ 2 ^ 62 := by exact_mod_cast hlen
  obtain ⟨hb1, hb2⟩ := tmod_bounds i v.length hl
  unfold SliceIdx goRem
  simp only [hl0, if_false]
  rw [wrapInt_of_range _ (by omega) (by omega)]
  rw [Int.tmod_eq_emod (by omega) (by omega), tmod_add_emod]

/-- The function `SliceIdx` reads its slice only through the length. -/
theorem SliceIdx_len {α : Type u} (v : List α) (i : Int) (n : Nat) (h : v.length = n) :
    SliceIdx v i = match goRem i (n : Int) with
      | none => none
      | some r => goRem (wrapInt (r + (n : Int))) (n : Int) := by
  subst h; rfl

theorem SliceAt_of_neg {α : Type u} (v : List α) (i r : Int) (h : SliceIdx v i = some r)
    (hr : r < 0) : SliceAt v i = none := by
  unfold SliceAt
  rw [h]
  simp only [not_le.mpr hr, false_and, if_false]

/-- The arithmetic of `SliceIdx` for the length `2 ^ 62 + 1` and the index `2 ^ 62`. -/
theorem SliceIdx_arith_overflow :
    (match goRem (2 ^ 62) ((2 ^ 62 + 1 : Nat) : Int) with
      | none => none
      | some r => goRem (wrapInt (r + ((2 ^ 62 + 1 : Nat) : Int))) ((2 ^ 62 + 1 : Nat) : Int))
      = some (-(2 ^ 62 - 2)) := by
  decide

/-- C12, as the specification states it, does not hold: on a slice of `2 ^ 62 + 1`
elements (of a type of size zero) the sum `(i % l) + l` for the last position
`i = 2 ^ 62` leaves the range of `int`, `SliceIdx` returns a negative number, and
`SliceAt` panics. -/
theorem SliceIdx_overflow_counterexample :
    List.replicate (2 ^ 62 + 1) () ≠ []
    ∧ SliceIdx (List.replicate (2 ^ 62 + 1) ()) (2 ^ 62) = some (-(2 ^ 62 - 2))
    ∧ (¬ ∃ r : Int, SliceIdx (List.replicate (2 ^ 62 + 1) ()) (2 ^ 62) = some r ∧ 0 ≤ r)
    ∧ SliceAt (List.replicate (2 ^ 62 + 1) ()) (2 ^ 62) = none := by
  have h : SliceIdx (List.replicate (2 ^ 62 + 1) ()) (2 ^ 62) = some (-(2 ^ 62 - 2)) := by
    rw [SliceIdx_len _ _ (2 ^ 62 + 1) (List.length_replicate _ _)]
    exact SliceIdx_arith_overflow
  refine ⟨?_, h, ?_, ?_⟩
  · intro hnil
    have h2 := congrArg List.length hnil
    rw [List.length_replicate, List.length_nil] at h2
    omega
  · rintro ⟨r, hr, hr0⟩
    rw [h] at hr
    have : r = -(2 ^ 62 - 2) := (Option.some.inj hr).symm
    omega
  · exact SliceAt_of_neg _ _ _ h (by omega)

/-- C12, amended: on a non-empty slice of length `l ≤ 2 ^ 62` and for every index `i`,
`SliceIdx` returns `r` with `0 ≤ r < l` and `r` the floor modulus of `i` by `l` (so
congruent to `i`), and `SliceAt` returns the element at position `r`. -/
theorem SliceIdx_circular {α : Type u} (v : List α) (i : Int) (hne : v ≠ [])
    (hlen : v.length ≤ 2 ^ 62) :
    ∃ r : Int, SliceIdx v i = some r ∧ 0 ≤ r ∧ r < v.length ∧ r = i % (v.length : Int)
      ∧ r % (v.length : Int) = i % (v.length : Int)
      ∧ SliceAt v i = v[r.toNat]? ∧ ∃ x, SliceAt v i = some x := by
  have hpos : 0 < v.length := List.length_pos.mpr hne
  have hl : (0 : Int) < v.length := by exact_mod_cast hpos
  have h0 : 0 ≤ i % (v.length : Int) := Int.emod_nonneg i (by omega)
  have h1 : i % (v.length : Int) < v.length := Int.emod_lt_of_pos i hl
  have hat : SliceAt v i = v[(i % (v.length : Int)).toNat]? := by
    unfold SliceAt
    rw [SliceIdx_of_le v i hne hlen]
    simp only [h0, h1, and_self, if_true]
  refine ⟨i % (v.length : Int), SliceIdx_of_le v i hne hlen, h0, h1, rfl,
    Int.emod_emod _ _, hat, ?_⟩
  have hlt : (i % (v.length : Int)).toNat < v.length := by omega
  exact ⟨v[(i % (v.length : Int)).toNat], by rw [hat, List.getElem?_eq_getElem hlt]⟩

/-- The values of the specification for C12: in a slice of length 5 the index `-1` is
position 4, the index `5` is position 0 and the index `-6` is position 4. -/
theorem SliceIdx_circular_witness :
    SliceIdx [10, 20, 30, 40, 50] (-1) = some 4 ∧ SliceAt [10, 20, 30, 40, 50] (-1) = some 50
    ∧ SliceIdx [10, 20, 30, 40, 50] 5 = some 0 ∧ SliceIdx [10, 20, 30, 40, 50] (-6) = some 4 := by
  obtain ⟨r1, h1, _, _, e1, _, a1, _⟩ :=
    SliceIdx_circular [10, 20, 30, 40, 50] (-1) (by decide) (by decide)
  obtain ⟨r2, h2, _, _, e2, _⟩ :=
    SliceIdx_circular [10, 20, 30, 40, 50] 5 (by decide) (by decide)
  obtain ⟨r3, h3, _, _, e3, _⟩ :=
    SliceIdx_circular [10, 20, 30, 40, 50] (-6) (by decide) (by decide)
  have v1 : r1 = 4 := by rw [e1]; decide
  have v2 : r2 = 0 := by rw [e2]; decide
  have v3 : r3 = 4 := by rw [e3]; decide
  subst v1 v2 v3
  exact ⟨h1, by rw [a1]; rfl, h2, h3⟩

/-- C18: on the empty slice `SliceIdx` and `SliceAt` return nothing for any index: the
remainder by the zero length panics. -/
theorem SliceIdx_empty {α : Type u} (i : Int) :
    SliceIdx ([] : List α) i = none ∧ SliceAt ([] : List α) i = none
    ∧ goRem i (([] : List α).length : Int) = none := by
  refine ⟨?_, ?_, ?_⟩ <;> simp [SliceIdx, SliceAt, goRem]

/-- C16: when `IsEndsWith(buff, sep)` is true, the cut position `SliceIdx(buff, -len(sep))`
is `len(buff) - len(sep)`, also when the two lengths are equal and it is 0; it is
within the bounds of `buff[0:idx]`, the chunk `buff[0:idx]` followed by the separator is
`buff`, and the closure of the reader, on the byte that completes `buff`, calls the
callback on that chunk and leaves an empty accumulator. -/
theorem cut_position (buff sep : List Byte) (hb : buff.length < 2 ^ 63)
    (h : IsEndsWith buff sep = some true) :
    SliceIdx buff (wrapInt (-(sep.length : Int))) = some ((buff.length : Int) - sep.length)
    ∧ (buff.length = sep.length → SliceIdx buff (wrapInt (-(sep.length : Int))) = some 0)
    ∧ (0 : Int) ≤ (buff.length : Int) - sep.length
    ∧ (buff.length : Int) - sep.length ≤ buff.length
    ∧ buff.take ((buff.length : Int) - sep.length).toNat ++ sep = buff
    ∧ ∀ (ε σ : Type) (f : List Byte → σ → Option ε × σ) (s : σ) (buff0 : List Byte) (r : Byte),
        buff = buff0 ++ [r] →
        IterateFileBySeparator.step sep f r (buff0, s) =
          some ((f (buff.take ((buff.length : Int) - sep.length).toNat) s).1,
            (([] : List Byte), (f (buff.take ((buff.length : Int) - sep.length).toNat) s).2)) := by
  rw [IsEndsWith_eq buff sep hb] at h
  simp only [Option.some.injEq, decide_eq_true_eq] at h
  obtain ⟨hne, hsuf⟩ := h
  have hk : sep.length ≤ buff.length := hsuf.length_le
  have hk1 : 1 ≤ sep.length := by
    rcases sep with _ | ⟨a, l⟩
    · exact absurd rfl hne
    · simp
  have hw : wrapInt (-(sep.length : Int)) = -(sep.length : Int) := by
    have : (sep.length : Int) < 2 ^ 63 := by
      have := lt_of_le_of_lt hk hb
      exact_mod_cast this
    exact wrapInt_of_range _ (by omega) (by omega)
  have hidx := SliceIdx_neg buff sep.length hk1 hk hb
  have htn : ((buff.length : Int) - sep.length).toNat = buff.length - sep.length := by omega
  have hcut : buff.take (buff.length - sep.length) ++ sep = buff := by
    have h2 := List.suffix_iff_eq_drop.mp hsuf
    calc buff.take (buff.length - sep.length) ++ sep
        = buff.take (buff.length - sep.length) ++ buff.drop (buff.length - sep.length) := by
          rw [← h2]
      _ = buff := List.take_append_drop _ _
  refine ⟨by rw [hw, hidx], ?_, by omega, by omega, by rw [htn]; exact hcut, ?_⟩
  · intro heq
    rw [hw, hidx]
    congr 1
    omega
  · intro ε σ f s buff0 r hbuff
    subst hbuff
    rw [step_eq sep f r buff0 s (by simpa using hb), if_pos ⟨hne, hsuf⟩, htn]

/-- An instance of C16, with the accumulator equal to the separator: the cut position
is 0 and the chunk is empty. -/
theorem cut_position_witness :
    SliceIdx (bytes "--") (wrapInt (-((bytes "--").length : Int))) = some 0
    ∧ IterateFileBySeparator.step (bytes "--")
        (record : List Byte → List (List Byte) → Option String × List (List Byte))
        (UInt8.ofNat 45) (bytes "-", []) = some (none, ([], [[]])) := by
  have h := cut_position (bytes "--") (bytes "--") (by decide) (by decide)
  exact ⟨h.2.1 rfl, h.2.2.2.2.2 String (List (List Byte)) record [] (bytes "-") (UInt8.ofNat 45)
    (by decide)⟩

/-! ## The empty separator -/

theorem step_nil_sep {ε σ : Type} (f : List Byte → σ → Option ε × σ) (r : Byte)
    (buff : List Byte) (s : σ) :
    IterateFileBySeparator.step [] f r (buff, s) = some (none, (buff ++ [r], s)) := by
  simp [IterateFileBySeparator.step, IsEndsWith]

theorem loop_nil_sep {ε σ : Type} (f : List Byte → σ → Option ε × σ) :
    ∀ (rest buff : List Byte) (s : σ),
      IterateFileBytes.loop (IterateFileBySeparator.step [] f) rest none (buff, s)
        = some (none, (buff ++ rest, s)) := by
  intro rest
  induction rest with
  | nil => intro buff s; simp [IterateFileBytes.loop]
  | cons b rest ih =>
    intro buff s
    unfold IterateFileBytes.loop
    rw [step_nil_sep]
    simp only
    rw [ih]
    simp

/-- C20: with the empty separator the reader never finds a match and never faults: the
reading ends with the whole content in the accumulator and no call made; then the
callback is called once, on the whole content, when the content is not empty, and
not at all when it is. -/
theorem IterateFileBySeparator_nil_sep {ε σ : Type} (joinErr : ε → ε → ε) (S : List Byte)
    (f : List Byte → σ → Option ε × σ) (s : σ) :
    IterateFileBytes joinErr (File.ofContent S) (IterateFileBySeparator.step [] (noting f))
        (([] : List Byte), (s, ([] : List (List Byte)))) = some (none, (S, (s, [])))
    ∧ (S ≠ [] →
        IterateFileBySeparator joinErr (File.ofContent S) [] f s = some (f S s)
        ∧ IterateFileBySeparator joinErr (File.ofContent S) [] (noting f) (s, [])
            = some ((f S s).1, ((f S s).2, [S])))
    ∧ (S = [] →
        IterateFileBySeparator joinErr (File.ofContent S) [] (noting f) (s, [])
          = some (none, (s, []))) := by
  have hrun : ∀ (τ : Type) (g : List Byte → τ → Option ε × τ) (t : τ),
      IterateFileBytes joinErr (File.ofContent S) (IterateFileBySeparator.step [] g)
        (([] : List Byte), t) = some (none, (S, t)) := by
    intro τ g t
    unfold IterateFileBytes
    simp only [File.ofContent]
    rw [loop_nil_sep]
    simp [multierrAppend]
  refine ⟨hrun _ (noting f) (s, []), ?_, ?_⟩
  · intro hS
    have hpos : S.length > 0 := List.length_pos.mpr hS
    constructor
    · unfold IterateFileBySeparator
      rw [hrun]
      simp only [hpos, if_true]
    · unfold IterateFileBySeparator
      rw [hrun]
      simp only [hpos, if_true, noting, List.nil_append]
  · intro hS
    subst hS
    rfl

/-- An instance of C20: the content `a,b` with the empty separator. -/
theorem IterateFileBySeparator_nil_sep_witness :
    IterateFileBySeparator joinMsg (File.ofContent (bytes "a,b")) []
        (noting (fun (_ : List Byte) (n : Nat) => ((none : Option String), n + 1))) (0, [])
      = some (none, (1, [bytes "a,b"]))
    ∧ IterateFileBySeparator joinMsg (File.ofContent []) []
        (noting (fun (_ : List Byte) (n : Nat) => ((none : Option String), n + 1))) (0, [])
      = some (none, (0, [])) :=
  ⟨((IterateFileBySeparator_nil_sep joinMsg (bytes "a,b")
      (fun (_ : List Byte) (n : Nat) => ((none : Option String), n + 1)) 0).2.1 (by decide)).2,
   (IterateFileBySeparator_nil_sep joinMsg []
      (fun (_ : List Byte) (n : Nat) => ((none : Option String), n + 1)) 0).2.2 rfl⟩

/-! ## The value returned with an error -/

/-- When the fold of the first `k` elements succeeds and the call at index `k` fails,
`ReduceErr` returns what that call returned. -/
theorem ReduceErr_fail_at {From To ε σ : Type}
    (fn : From → To → Int → σ → (To × Option ε) × σ) (S : List From) (init : To) (s0 : σ)
    (k : Nat) (x : From) (a a' : To) (s1 s2 : σ) (e : ε)
    (hk : S[k]? = some x)
    (hprev : ReduceErr (S.take k) fn init s0 = ((a, none), s1))
    (hfail : fn x a k s1 = ((a', some e), s2)) :
    ReduceErr S fn init s0 = ((a', some e), s2) := by
  have hlt : k < S.length := by
    by_contra hge
    rw [List.getElem?_eq_none (by omega)] at hk
    exact absurd hk (by simp)
  have htake : S.take (k + 1) = S.take k ++ [x] := by
    rw [List.take_succ, hk]; rfl
  have hlen : ((S.take k).length : Int) = k := by
    simp only [List.length_take]; congr 1; omega
  have hS : S = S.take (k + 1) ++ S.drop (k + 1) := (List.take_append_drop _ _).symm
  have h1 : ReduceErr (S.take (k + 1)) fn init s0 = ((a', some e), s2) := by
    rw [htake, ReduceErr_concat_ok fn (S.take k) x init a s0 s1 hprev, hlen, hfail]
  conv_lhs => rw [hS]
  exact ReduceErr_stop fn _ _ init a' s0 s2 e h1

/-- The fold of `[5, 7, 9, 11]` by a sum that fails at index 2, evaluated. -/
theorem run_sum_fails :
    ReduceErr ([5, 7, 9, 11].take 2)
        (fun (x a : Nat) (i : Int) (_ : Unit) =>
          ((a + x, if i = 2 then some "odd" else none), ())) 0 () = ((12, none), ())
    ∧ ReduceErr [5, 7, 9, 11]
        (fun (x a : Nat) (i : Int) (_ : Unit) =>
          ((a + x, if i = 2 then some "odd" else none), ())) 0 () = ((21, some "odd"), ()) := by
  decide

/-- C15, as the specification states it, does not hold: summing `[5, 7, 9, 11]` with a
function that fails at index 2 while returning the sum so far plus the element, the
fold of the elements before the failure is 12, and `ReduceErr` returns 21 with the
error. -/
theorem ReduceErr_value_counterexample :
    ReduceErr ([5, 7, 9, 11].take 2)
        (fun (x a : Nat) (i : Int) (_ : Unit) =>
          ((a + x, if i = 2 then some "odd" else none), ())) 0 () = ((12, none), ())
    ∧ (ReduceErr [5, 7, 9, 11]
        (fun (x a : Nat) (i : Int) (_ : Unit) =>
          ((a + x, if i = 2 then some "odd" else none), ())) 0 ()).1.2 = some "odd"
    ∧ (ReduceErr [5, 7, 9, 11]
        (fun (x a : Nat) (i : Int) (_ : Unit) =>
          ((a + x, if i = 2 then some "odd" else none), ())) 0 ()).1.1 ≠ 12 := by
  refine ⟨run_sum_fails.1, ?_, ?_⟩
  · rw [run_sum_fails.2]
  · rw [run_sum_fails.2]; decide

/-- C15, amended: when `fn` first fails at index `k`, the value `ReduceErr` returns with
the error is the value the failing call returned; it is the fold of the elements
before `k` when the failing call returns the accumulated value it was given. -/
theorem ReduceErr_value_at_failure {From To ε σ : Type}
    (fn : From → To → Int → σ → (To × Option ε) × σ) (S : List From) (init : To) (s0 : σ)
    (k : Nat) (x : From) (a a' : To) (s1 s2 : σ) (e : ε)
    (hk : S[k]? = some x)
    (hprev : ReduceErr (S.take k) fn init s0 = ((a, none), s1))
    (hfail : fn x a k s1 = ((a', some e), s2)) :
    (ReduceErr S fn init s0).1.1 = a'
    ∧ (ReduceErr S fn init s0).1.2 = some e
    ∧ (a' = a → (ReduceErr S fn init s0).1.1 = (ReduceErr (S.take k) fn init s0).1.1) := by
  rw [ReduceErr_fail_at fn S init s0 k x a a' s1 s2 e hk hprev hfail, hprev]
  exact ⟨rfl, rfl, fun h => h⟩

/-- An instance of C15 amended: the sum that fails at index 2 of `[5, 7, 9, 11]`. -/
theorem ReduceErr_value_at_failure_witness :
    (ReduceErr [5, 7, 9, 11]
        (fun (x a : Nat) (i : Int) (_ : Unit) =>
          ((a + x, if i = 2 then some "odd" else none), ())) 0 ()).1.1 = 21 :=
  (ReduceErr_value_at_failure
    (fun (x a : Nat) (i : Int) (_ : Unit) => ((a + x, if i = 2 then some "odd" else none), ()))
    [5, 7, 9, 11] 0 () 2 9 12 21 () () "odd" (by decide) (by decide) (by decide)).1

/-! ## ForEachErr and the fold -/

theorem ForEachErr_loop_eq_ReduceErr {T ε σ : Type} (fn : T → Int → σ → Option ε × σ) :
    ∀ (rest : List T) (i : Int) (s : σ),
      ForEachErr.loop fn rest i s =
        ((ReduceErr.loop (fun x (_ : Unit) j st => (((), (fn x j st).1), (fn x j st).2))
            rest i () s).1.2,
          (ReduceErr.loop (fun x (_ : Unit) j st => (((), (fn x j st).1), (fn x j st).2))
            rest i () s).2) := by
  intro rest
  induction rest with
  | nil => intro i s; rfl
  | cons v rest ih =>
    intro i s
    simp only [ForEachErr.loop, ReduceErr.loop]
    rcases hf : fn v i s with ⟨err, s'⟩
    cases err with
    | some e => rfl
    | none => exact ih (i + 1) s'

theorem ForEachErr1_loop_eq {T T2 ε σ : Type} (v2 : T2) (fn : T2 → T → Int → σ → Option ε × σ) :
    ∀ (rest : List T) (i : Int) (s : σ),
      ForEachErr1.loop v2 fn rest i s = ForEachErr.loop (fn v2) rest i s := by
  intro rest
  induction rest with
  | nil => intro i s; rfl
  | cons v rest ih =>
    intro i s
    simp only [ForEachErr1.loop, ForEachErr.loop]
    rcases hf : fn v2 v i s with ⟨err, s'⟩
    cases err with
    | some e => rfl
    | none => exact ih (i + 1) s'

/-- C17: for every callback `fn`, with any effects, `ForEachErr(S, fn)` returns the error
and leaves the state that `ReduceErr` returns and leaves on the unit accumulator with
`combine(x, _, i) = (unit, fn(x, i))`; in particular, for a callback that notes its
calls, the same calls in the same order. -/
theorem ForEachErr_is_ReduceErr {T ε σ : Type} (S : List T) (fn : T → Int → σ → Option ε × σ)
    (s : σ) (g : T → Int → Option ε) :
    ForEachErr S fn s =
      ((ReduceErr S (fun x (_ : Unit) j st => (((), (fn x j st).1), (fn x j st).2)) () s).1.2,
        (ReduceErr S (fun x (_ : Unit) j st => (((), (fn x j st).1), (fn x j st).2)) () s).2)
    ∧ (ForEachErr S (logCalls g) []).2 =
        (ReduceErr S (fun x (_ : Unit) j st =>
          (((), (logCalls g x j st).1), (logCalls g x j st).2)) () []).2 := by
  constructor
  · exact ForEachErr_loop_eq_ReduceErr fn S 0 s
  · rw [show ForEachErr S (logCalls g) [] = _ from ForEachErr_loop_eq_ReduceErr (logCalls g) S 0 []]
    rfl

/-! ## No separator inside a chunk -/

/-- The accumulator never contains the separator, and so neither does a chunk. -/
theorem splitAcc_no_sep_inside (sep : List Byte) (hsep : sep ≠ []) :
    ∀ (x buff : List Byte), ¬ sep <:+: buff →
      (∀ m ∈ (splitAcc sep x buff).1, ¬ sep <:+: m) ∧ ¬ sep <:+: (splitAcc sep x buff).2 := by
  intro x
  induction x with
  | nil => intro buff h; simpa [splitAcc] using h
  | cons b rest ih =>
    intro buff h
    have hnil : ¬ sep <:+: ([] : List Byte) := by
      intro h0
      exact hsep (List.eq_nil_of_infix_nil h0)
    by_cases hm : sep ≠ [] ∧ sep <:+ buff ++ [b]
    · simp only [splitAcc, if_pos hm]
      obtain ⟨ih1, ih2⟩ := ih [] hnil
      refine ⟨?_, ih2⟩
      intro m hmem
      rcases List.mem_cons.mp hmem with rfl | hmem
      · intro hin
        apply h
        have hlen : (buff ++ [b]).length - sep.length ≤ buff.length := by
          have : 0 < sep.length := List.length_pos.mpr hsep
          simp only [List.length_append, List.length_singleton]
          omega
        have hpre : (buff ++ [b]).take ((buff ++ [b]).length - sep.length) <+: buff := by
          rw [List.take_append_of_le_length hlen]
          exact List.take_prefix _ _
        exact List.IsInfix.trans hin hpre.isInfix
      · exact ih1 m hmem
    · simp only [splitAcc, if_neg hm]
      apply ih (buff ++ [b])
      intro hin
      rcases List.infix_concat_iff.mp hin with h1 | h1
      · exact hm ⟨hsep, h1⟩
      · exact h h1

theorem chunksOf_no_sep_inside (sep S : List Byte) (hsep : sep ≠ []) :
    ∀ c ∈ chunksOf sep S, ¬ sep <:+: c := by
  have hnil : ¬ sep <:+: ([] : List Byte) := fun h0 => hsep (List.eq_nil_of_infix_nil h0)
  obtain ⟨h1, h2⟩ := splitAcc_no_sep_inside sep hsep S [] hnil
  intro c hc
  unfold chunksOf at hc
  rcases List.mem_append.mp hc with hc | hc
  · exact h1 c hc
  · by_cases ht : (splitAcc sep S []).2 = []
    · simp [ht] at hc
    · simp only [ht, if_false, List.mem_singleton] at hc
      rw [hc]; exact h2

/-- The chunks a callback has noted are the first ones of the list it is called on. -/
theorem callSeq_noting_take {ε σ : Type} (f : List Byte → σ → Option ε × σ) :
    ∀ (l : List (List Byte)) (s : σ) (received : List (List Byte)),
      ∃ j, (callSeq (noting f) l (s, received)).2.2 = received ++ l.take j := by
  intro l
  induction l with
  | nil => intro s received; exact ⟨0, by simp [callSeq]⟩
  | cons c l ih =>
    intro s received
    rcases hf : f c s with ⟨err, s'⟩
    cases err with
    | some e => exact ⟨1, by simp [callSeq, noting, hf]⟩
    | none =>
      obtain ⟨j, hj⟩ := ih s' (received ++ [c])
      exact ⟨j + 1, by simp [callSeq, noting, hf, hj]⟩

/-- C19: for a non-empty separator and every callback, the reader returns, and no chunk
the callback has been called on, cut at a match or left at end-of-file, contains the
separator. -/
theorem IterateFileBySeparator_no_sep_inside {ε σ : Type} (joinErr : ε → ε → ε)
    (sep S : List Byte) (f : List Byte → σ → Option ε × σ) (s : σ)
    (hsep : sep ≠ []) (hb : S.length < 2 ^ 63) :
    ∃ (err : Option ε) (s' : σ) (received : List (List Byte)),
      IterateFileBySeparator joinErr (File.ofContent S) sep (noting f) (s, [])
        = some (err, (s', received))
      ∧ ∀ c ∈ received, ¬ sep <:+: c := by
  rw [IterateFileBySeparator_eq joinErr sep S (noting f) (s, []) hb]
  obtain ⟨j, hj⟩ := callSeq_noting_take f (chunksOf sep S) s []
  refine ⟨(callSeq (noting f) (chunksOf sep S) (s, [])).1,
    (callSeq (noting f) (chunksOf sep S) (s, [])).2.1,
    (callSeq (noting f) (chunksOf sep S) (s, [])).2.2, rfl, ?_⟩
  intro c hc
  rw [hj, List.nil_append] at hc
  exact chunksOf_no_sep_inside sep S hsep c (List.mem_of_mem_take hc)

/-- An instance of C19: the content `ab--cd---e` with the separator `--`. -/
theorem IterateFileBySeparator_no_sep_inside_witness :
    ∃ (err : Option String) (s' : Unit) (received : List (List Byte)),
      IterateFileBySeparator joinMsg (File.ofContent (bytes "ab--cd---e")) (bytes "--")
          (noting (fun (_ : List Byte) (_ : Unit) => ((none : Option String), ()))) ((), [])
        = some (err, (s', received))
      ∧ ∀ c ∈ received, ¬ bytes "--" <:+: c :=
  IterateFileBySeparator_no_sep_inside joinMsg (bytes "--") (bytes "ab--cd---e")
    (fun (_ : List Byte) (_ : Unit) => ((none : Option String), ())) () (by decide) (by decide)

/-! ## Elements with their positions -/

theorem indexed_eq {From : Type} (S : List From) :
    indexed S = (S.enumFrom 0).map (fun p => (p.2, (p.1 : Int))) := rfl

theorem split_at_index {From : Type} (S : List From) (k : Nat) (x : From)
    (hk : S[k]? = some x) :
    S = S.take k ++ x :: S.drop (k + 1) ∧ (S.take k).length = k ∧ k < S.length := by
  have hlt : k < S.length := by
    by_contra hge
    rw [List.getElem?_eq_none (by omega)] at hk
    exact absurd hk (by simp)
  have hx : S[k] = x := by
    rw [List.getElem?_eq_getElem hlt] at hk
    exact Option.some.inj hk
  refine ⟨?_, ?_, hlt⟩
  · rw [← hx, ← List.drop_eq_getElem_cons hlt, List.take_append_drop]
  · simp only [List.length_take]; omega

theorem mem_enumFrom_zero {From : Type} (S : List From) (P : From → Nat → Prop)
    (h : ∀ (i : Nat) (x : From), S[i]? = some x → P x i) :
    ∀ p ∈ S.enumFrom 0, P p.2 p.1 := by
  intro p hp
  exact h p.1 p.2 (List.mem_enum_iff_getElem?.mp hp)

theorem mem_enumFrom_take {From : Type} (S : List From) (k : Nat) (P : From → Nat → Prop)
    (h : ∀ (i : Nat) (y : From), i < k → S[i]? = some y → P y i) :
    ∀ p ∈ (S.take k).enumFrom 0, P p.2 p.1 := by
  intro p hp
  have h1 : (S.take k)[p.1]? = some p.2 := List.mem_enum_iff_getElem?.mp hp
  rw [List.getElem?_take] at h1
  by_cases hlt : p.1 < k
  · rw [if_pos hlt] at h1
    exact h p.1 p.2 hlt h1
  · rw [if_neg hlt] at h1
    exact absurd h1 (by simp)

theorem take_length_succ_append {α : Type} (l₁ l₂ : List α) (a : α) (k : Nat)
    (hk : l₁.length = k) : (l₁ ++ a :: l₂).take (k + 1) = l₁ ++ [a] := by
  subst hk
  rw [List.take_append]
  simp

theorem indexed_take_succ {From : Type} (S : List From) (k : Nat) (x : From)
    (hk : S[k]? = some x) :
    (indexed S).take (k + 1)
      = ((S.take k).enumFrom 0).map (fun p => (p.2, (p.1 : Int))) ++ [(x, (k : Int))] := by
  obtain ⟨hS, hlen, _⟩ := split_at_index S k x hk
  have hl : (((S.take k).enumFrom 0).map (fun p => (p.2, (p.1 : Int)))).length = k := by
    simp only [List.length_map, List.enumFrom_length]; exact hlen
  have h1 : indexed S = ((S.take k).enumFrom 0).map (fun p => (p.2, (p.1 : Int)))
      ++ (x, (k : Int)) :: ((S.drop (k + 1)).enumFrom (k + 1)).map (fun p => (p.2, (p.1 : Int))) := by
    conv_lhs => rw [hS, indexed_eq, List.enumFrom_append, List.map_append, List.enumFrom_cons,
      List.map_cons]
    simp only [hlen, zero_add]
  rw [h1]
  exact take_length_succ_append _ _ _ k hl

/-! ## ForEachErr on a function of the element and the index -/

theorem ForEachErr_loop_ok {T ε : Type} (g : T → Int → Option ε) :
    ∀ (rest : List T) (n : Nat) (seen : List (T × Int)),
      (∀ p ∈ rest.enumFrom n, g p.2 p.1 = none) →
      ForEachErr.loop (logCalls g) rest n seen
        = (none, seen ++ (rest.enumFrom n).map (fun p => (p.2, (p.1 : Int)))) := by
  intro rest
  induction rest with
  | nil => intro n seen _; simp [ForEachErr.loop]
  | cons v rest ih =>
    intro n seen h
    have hv : g v n = none := h (n, v) (by simp [List.enumFrom_cons])
    have hc : ((n : Int) + 1) = ((n + 1 : Nat) : Int) := by push_cast; rfl
    simp only [ForEachErr.loop, logCalls, hv, hc]
    rw [ih (n + 1) _ (fun p hp => h p (by simp [List.enumFrom_cons, hp]))]
    simp [List.enumFrom_cons]

theorem ForEachErr_loop_fail {T ε : Type} (g : T → Int → Option ε) (x : T) (post : List T)
    (e : ε) :
    ∀ (pre : List T) (n : Nat) (seen : List (T × Int)),
      (∀ p ∈ pre.enumFrom n, g p.2 p.1 = none) →
      g x ((n + pre.length : Nat) : Int) = some e →
      ForEachErr.loop (logCalls g) (pre ++ x :: post) n seen
        = (some e, seen ++ (pre.enumFrom n).map (fun p => (p.2, (p.1 : Int)))
            ++ [(x, ((n + pre.length : Nat) : Int))]) := by
  intro pre
  induction pre with
  | nil =>
    intro n seen _ hx
    simp only [List.length_nil, Nat.add_zero] at hx
    simp [ForEachErr.loop, logCalls, hx]
  | cons v pre ih =>
    intro n seen h hx
    have hv : g v n = none := h (n, v) (by simp [List.enumFrom_cons])
    have hc : ((n : Int) + 1) = ((n + 1 : Nat) : Int) := by push_cast; rfl
    have hn : n + (v :: pre).length = n + 1 + pre.length := by simp only [List.length_cons]; omega
    rw [hn] at hx ⊢
    simp only [List.cons_append, ForEachErr.loop, logCalls, hv, hc, List.append_eq]
    rw [ih (n + 1) _ (fun p hp => h p (by simp [List.enumFrom_cons, hp])) hx]
    simp [List.enumFrom_cons]

theorem ForEachErr_loop_none {T ε : Type} (g : T → Int → Option ε) :
    ∀ (rest : List T) (n : Nat) (seen : List (T × Int)),
      (ForEachErr.loop (logCalls g) rest n seen).1 = none →
      ∀ p ∈ rest.enumFrom n, g p.2 p.1 = none := by
  intro rest
  induction rest with
  | nil => intro n seen _ p hp; simp at hp
  | cons v rest ih =>
    intro n seen h p hp
    have hc : ((n : Int) + 1) = ((n + 1 : Nat) : Int) := by push_cast; rfl
    simp only [ForEachErr.loop, logCalls] at h
    rcases hg : g v n with _ | e
    · rw [hg] at h
      simp only [hc] at h
      rw [List.enumFrom_cons] at hp
      rcases List.mem_cons.mp hp with rfl | hp
      · exact hg
      · exact ih (n + 1) _ h p hp
    · rw [hg] at h
      simp at h

/-- C14: for a function `g` of the element and the index, called through a callback
that notes its calls, `ForEachErr(S, g)` returns nil exactly when `g` succeeds at
every index, and then it has called `g` on every element with its position, in order;
when `k` is the first index where `g` fails, it returns the error of that call and has
called `g` on the positions `0, ..., k` only, in order. And `ForEachErr1(S, c, fn)` is
`ForEachErr(S, fn(c))` for every callback `fn`, with any effects. -/
theorem ForEachErr_result {T ε : Type} (S : List T) (g : T → Int → Option ε) :
    ((ForEachErr S (logCalls g) []).1 = none ↔
        ∀ (i : Nat) (x : T), S[i]? = some x → g x i = none)
    ∧ ((∀ (i : Nat) (x : T), S[i]? = some x → g x i = none) →
        ForEachErr S (logCalls g) [] = (none, indexed S))
    ∧ (∀ (k : Nat) (x : T) (e : ε), S[k]? = some x → g x k = some e →
        (∀ (i : Nat) (y : T), i < k → S[i]? = some y → g y i = none) →
        ForEachErr S (logCalls g) [] = (some e, (indexed S).take (k + 1)))
    ∧ (∀ (T2 σ : Type) (c : T2) (fn : T2 → T → Int → σ → Option ε × σ) (s : σ),
        ForEachErr1 S c fn s = ForEachErr S (fn c) s) := by
  have hok : (∀ (i : Nat) (x : T), S[i]? = some x → g x i = none) →
      ForEachErr S (logCalls g) [] = (none, indexed S) := by
    intro h
    have := ForEachErr_loop_ok g S 0 [] (mem_enumFrom_zero S (fun x i => g x i = none) h)
    simpa [ForEachErr, indexed_eq] using this
  refine ⟨⟨?_, fun h => by rw [hok h]⟩, hok, ?_, ?_⟩
  · intro h i x hx
    have := ForEachErr_loop_none g S 0 [] h (i, x) (List.mk_mem_enum_iff_getElem?.mpr hx)
    exact this
  · intro k x e hk hx hprev
    obtain ⟨hS, hlen, _⟩ := split_at_index S k x hk
    have h1 := ForEachErr_loop_fail g x (S.drop (k + 1)) e (S.take k) 0 []
      (mem_enumFrom_take S k (fun y i => g y i = none) hprev)
      (by rw [hlen, Nat.zero_add]; exact hx)
    rw [indexed_take_succ S k x hk]
    unfold ForEachErr
    conv_lhs => rw [hS]
    rw [hlen, Nat.zero_add] at h1
    simpa using h1
  · intro T2 σ c fn s
    exact ForEachErr1_loop_eq c fn S 0 s

/-- An instance of C14: on `[10, 20, 30, 40]` a function that fails at index 2. -/
theorem ForEachErr_result_witness :
    ForEachErr [10, 20, 30, 40]
        (logCalls (fun (_ : Nat) (i : Int) => if i = 2 then some "stop" else none)) []
      = (some "stop", [(10, 0), (20, 1), (30, 2)])
    ∧ ForEachErr [10, 20, 30, 40] (logCalls (fun (_ : Nat) (_ : Int) => (none : Option String))) []
      = (none, [(10, 0), (20, 1), (30, 2), (40, 3)]) :=
  ⟨(ForEachErr_result [10, 20, 30, 40]
      (fun (_ : Nat) (i : Int) => if i = 2 then some "stop" else none)).2.2.1 2 30 "stop"
      (by decide) (by decide)
      (fun i y hi _ => by
        have hne : (i : Int) ≠ 2 := by omega
        simp [hne]),
   (ForEachErr_result [10, 20, 30, 40]
      (fun (_ : Nat) (_ : Int) => (none : Option String))).2.1 (fun _ _ _ => rfl)⟩

/-! ## Map and MapErr on a function of the element and the index -/

theorem setIndex_at_length {To : Type} (done tl : List To) (z v : To) :
    setIndex (done ++ z :: tl) (done.length : Int) v = some (done ++ v :: tl) := by
  have h1 : (0 : Int) ≤ (done.length : Int)
      ∧ (done.length : Int) < ((done ++ z :: tl).length : Int) := by
    simp only [List.length_append, List.length_cons]
    omega
  unfold setIndex
  rw [if_pos h1]
  simp [List.set_append]

theorem Map_loop_eq {From To : Type} (zero : To) (g : From → Int → To) :
    ∀ (rest : List From) (done : List To) (seen : List (From × Int)),
      Reduce.loop (Map.body (logCalls g)) rest (done.length : Int)
          (some (done ++ List.replicate rest.length zero)) seen
        = (some (done ++ (rest.enumFrom done.length).map (fun p => g p.2 p.1)),
            seen ++ (rest.enumFrom done.length).map (fun p => (p.2, (p.1 : Int)))) := by
  intro rest
  induction rest with
  | nil => intro done seen; simp [Reduce.loop]
  | cons v rest ih =>
    intro done seen
    have hc : ((done.length : Int) + 1) = (((done ++ [g v done.length]).length : Nat) : Int) := by
      simp only [List.length_append, List.length_singleton]; push_cast; rfl
    have hl : (done ++ [g v done.length]).length = done.length + 1 := by simp
    simp only [Reduce.loop, Map.body, logCalls, List.length_cons, List.replicate_succ,
      setIndex_at_length]
    rw [hc]
    have h2 : done ++ g v (done.length : Int) :: List.replicate rest.length zero
        = (done ++ [g v done.length]) ++ List.replicate rest.length zero := by simp
    rw [h2, ih (done ++ [g v done.length]) (seen ++ [(v, (done.length : Int))]), hl]
    simp [List.enumFrom_cons]

theorem MapErr_loop_ok {From To ε : Type} (zero : To) (g : From → Int → To × Option ε) :
    ∀ (rest : List From) (done : List To) (seen : List (From × Int)),
      (∀ p ∈ rest.enumFrom done.length, (g p.2 p.1).2 = none) →
      ReduceErr.loop (MapErr.body (logCalls g)) rest (done.length : Int)
          (some (done ++ List.replicate rest.length zero)) seen
        = ((some (done ++ (rest.enumFrom done.length).map (fun p => (g p.2 p.1).1)), none),
            seen ++ (rest.enumFrom done.length).map (fun p => (p.2, (p.1 : Int)))) := by
  intro rest
  induction rest with
  | nil => intro done seen _; simp [ReduceErr.loop]
  | cons v rest ih =>
    intro done seen h
    have hv : (g v done.length).2 = none := h (done.length, v) (by simp [List.enumFrom_cons])
    have hc : ((done.length : Int) + 1)
        = (((done ++ [(g v done.length).1]).length : Nat) : Int) := by
      simp only [List.length_append, List.length_singleton]; push_cast; rfl
    have hl : (done ++ [(g v done.length).1]).length = done.length + 1 := by simp
    rcases hg : g v done.length with ⟨val, err⟩
    rw [hg] at hv hc hl
    simp only at hv
    subst hv
    simp only [ReduceErr.loop, MapErr.body, logCalls, List.length_cons, List.replicate_succ,
      setIndex_at_length, hg]
    rw [hc]
    have h2 : done ++ val :: List.replicate rest.length zero
        = (done ++ [val]) ++ List.replicate rest.length zero := by simp
    rw [h2, ih (done ++ [val]) (seen ++ [(v, (done.length : Int))])
      (by rw [hl]; exact fun p hp => h p (by simp [List.enumFrom_cons, hp])), hl]
    simp [List.enumFrom_cons, hg]

theorem MapErr_loop_fail {From To ε : Type} (zero : To) (g : From → Int → To × Option ε)
    (x : From) (post : List From) (e : ε) :
    ∀ (pre : List From) (done : List To) (seen : List (From × Int)),
      (∀ p ∈ pre.enumFrom done.length, (g p.2 p.1).2 = none) →
      (g x ((done.length + pre.length : Nat) : Int)).2 = some e →
      ReduceErr.loop (MapErr.body (logCalls g)) (pre ++ x :: post) (done.length : Int)
          (some (done ++ List.replicate (pre ++ x :: post).length zero)) seen
        = ((some (done ++ (pre.enumFrom done.length).map (fun p => (g p.2 p.1).1)
              ++ (g x ((done.length + pre.length : Nat) : Int)).1
                :: List.replicate post.length zero), some e),
            seen ++ (pre.enumFrom done.length).map (fun p => (p.2, (p.1 : Int)))
              ++ [(x, ((done.length + pre.length : Nat) : Int))]) := by
  intro pre
  induction pre with
  | nil =>
    intro done seen _ hx
    simp only [List.length_nil, Nat.add_zero] at hx ⊢
    rcases hg : g x done.length with ⟨val, err⟩
    rw [hg] at hx
    simp only at hx
    subst hx
    simp [ReduceErr.loop, MapErr.body, logCalls, List.replicate_succ, setIndex_at_length, hg]
  | cons v pre ih =>
    intro done seen h hx
    have hv : (g v done.length).2 = none := h (done.length, v) (by simp [List.enumFrom_cons])
    rcases hg : g v done.length with ⟨val, err⟩
    rw [hg] at hv
    simp only at hv
    subst hv
    have hl : (done ++ [val]).length = done.length + 1 := by simp
    have hc : ((done.length : Int) + 1) = (((done ++ [val]).length : Nat) : Int) := by
      rw [hl]; push_cast; rfl
    have hn : done.length + (v :: pre).length = (done ++ [val]).length + pre.length := by
      simp only [List.length_cons, hl]; omega
    rw [hn] at hx ⊢
    simp only [List.cons_append, List.append_eq, ReduceErr.loop, MapErr.body, logCalls,
      List.length_cons, List.replicate_succ, setIndex_at_length, hg]
    rw [hc]
    have h2 : done ++ val :: List.replicate (pre ++ x :: post).length zero
        = (done ++ [val]) ++ List.replicate (pre ++ x :: post).length zero := by simp
    rw [h2, ih (done ++ [val]) (seen ++ [(v, (done.length : Int))])
      (by rw [hl]; exact fun p hp => h p (by simp [List.enumFrom_cons, hp])) hx, hl]
    simp [List.enumFrom_cons, hg]

theorem getElem?_map_enumFrom_zero {From R : Type} (S : List From) (h : From → Nat → R)
    (i : Nat) (x : From) (hx : S[i]? = some x) :
    ((S.enumFrom 0).map (fun p => h p.2 p.1))[i]? = some (h x i) := by
  rw [List.getElem?_map, List.getElem?_enumFrom, hx]
  simp

/-- C11: for a function `g` of the element and the index, called through a callback
that notes its calls, `Map(S, g)` returns a slice of the length of `S` whose element
at every position `i` is `g(S[i], i)`, after calling `g` once on every element with its
position, in order; on the empty sequence it returns the empty slice without a call. -/
theorem Map_elements {From To : Type} (zero : To) (S : List From) (g : From → Int → To) :
    (∃ out : List To,
      Map zero S (logCalls g) [] = (some out, indexed S)
      ∧ out.length = S.length
      ∧ ∀ (i : Nat) (x : From), S[i]? = some x → out[i]? = some (g x i))
    ∧ Map zero ([] : List From) (logCalls g) [] = (some [], []) := by
  refine ⟨⟨(S.enumFrom 0).map (fun p => g p.2 p.1), ?_, by simp, ?_⟩, rfl⟩
  · have := Map_loop_eq zero g S [] []
    simpa [Map, indexed_eq] using this
  · intro i x hx
    exact getElem?_map_enumFrom_zero S (fun y j => g y j) i x hx

/-- C13: for a function `g` of the element and the index, called through a callback
that notes its calls: when `g` succeeds at every index, `MapErr(S, g)` returns a nil
error and a slice of the length of `S` whose element `i` is the value of `g(S[i], i)`;
when `k` is the first index where `g` fails, it returns the error of that call, has
called `g` on the positions `0, ..., k` only, and returns a slice of the length of `S`
with the values of `g` at the positions before `k` and the zero value at every
position after `k`. -/
theorem MapErr_result {From To ε : Type} (zero : To) (S : List From)
    (g : From → Int → To × Option ε) :
    ((∀ (i : Nat) (x : From), S[i]? = some x → (g x i).2 = none) →
      ∃ out : List To,
        MapErr zero S (logCalls g) [] = ((some out, none), indexed S)
        ∧ out.length = S.length
        ∧ ∀ (i : Nat) (x : From), S[i]? = some x → out[i]? = some (g x i).1)
    ∧ (∀ (k : Nat) (x : From) (e : ε), S[k]? = some x → (g x k).2 = some e →
        (∀ (i : Nat) (y : From), i < k → S[i]? = some y → (g y i).2 = none) →
        ∃ out : List To,
          MapErr zero S (logCalls g) [] = ((some out, some e), (indexed S).take (k + 1))
          ∧ out.length = S.length
          ∧ (∀ (i : Nat) (y : From), i < k → S[i]? = some y → out[i]? = some (g y i).1)
          ∧ out[k]? = some (g x k).1
          ∧ ∀ (i : Nat), k < i → i < S.length → out[i]? = some zero) := by
  constructor
  · intro h
    refine ⟨(S.enumFrom 0).map (fun p => (g p.2 p.1).1), ?_, by simp, ?_⟩
    · have := MapErr_loop_ok zero g S [] []
        (mem_enumFrom_zero S (fun x i => (g x i).2 = none) h)
      simpa [MapErr, ReduceErr, indexed_eq] using this
    · intro i x hx
      exact getElem?_map_enumFrom_zero S (fun y j => (g y j).1) i x hx
  · intro k x e hk hx hprev
    obtain ⟨hS, hlen, hlt⟩ := split_at_index S k x hk
    have h1 := MapErr_loop_fail zero g x (S.drop (k + 1)) e (S.take k) [] []
      (mem_enumFrom_take S k (fun y i => (g y i).2 = none) hprev)
      (by rw [hlen]; simpa using hx)
    simp only [List.length_nil, Nat.zero_add, List.nil_append, hlen, ← hS, Nat.cast_zero] at h1
    have hpl : (((S.take k).enumFrom 0).map (fun p => (g p.2 p.1).1)).length = k := by
      simp only [List.length_map, List.enumFrom_length]; exact hlen
    refine ⟨((S.take k).enumFrom 0).map (fun p => (g p.2 p.1).1)
        ++ (g x k).1 :: List.replicate (S.drop (k + 1)).length zero, ?_, ?_, ?_, ?_, ?_⟩
    · rw [indexed_take_succ S k x hk]
      exact h1
    · simp only [List.length_append, hpl, List.length_cons, List.length_replicate,
        List.length_drop]
      omega
    · intro i y hi hy
      rw [List.getElem?_append_left (by rw [hpl]; exact hi)]
      exact getElem?_map_enumFrom_zero (S.take k) (fun z j => (g z j).1) i y
        (by rw [List.getElem?_take_of_lt hi]; exact hy)
    · rw [List.getElem?_append_right (by rw [hpl]), hpl]
      simp
    · intro i hki hin
      rw [List.getElem?_append_right (by rw [hpl]; omega), hpl]
      obtain ⟨d, hd⟩ : ∃ d, i - k = d + 1 := ⟨i - k - 1, by omega⟩
      rw [hd, List.getElem?_cons_succ, List.getElem?_replicate]
      have h3 : d + (k + 1) < S.length := by omega
      simp [h3]

/-- An instance of C13: on `[10, 20, 30, 40]`, a function that adds the index and fails
at index 2, and one that never fails. -/
theorem MapErr_result_witness :
    (∃ out : List Nat,
      MapErr 0 [10, 20, 30, 40]
          (logCalls (fun (x : Nat) (i : Int) =>
            (x + i.toNat, if i = 2 then some "stop" else none))) []
        = ((some out, some "stop"), (indexed [10, 20, 30, 40]).take 3)
      ∧ out.length = 4 ∧ out[0]? = some 10 ∧ out[1]? = some 21 ∧ out[3]? = some 0)
    ∧ (∃ out : List Nat,
      MapErr 0 [10, 20, 30, 40]
          (logCalls (fun (x : Nat) (i : Int) => (x + i.toNat, (none : Option String)))) []
        = ((some out, none), indexed [10, 20, 30, 40])
      ∧ out.length = 4 ∧ out[3]? = some 43) := by
  constructor
  · obtain ⟨out, h, hl, hpre, _, hpost⟩ := (MapErr_result 0 [10, 20, 30, 40]
      (fun (x : Nat) (i : Int) => (x + i.toNat, if i = 2 then some "stop" else none))).2
      2 30 "stop" (by decide) (by decide)
      (fun i y hi _ => by
        have hne : (i : Int) ≠ 2 := by omega
        simp [hne])
    exact ⟨out, h, hl, hpre 0 10 (by decide) (by decide), hpre 1 20 (by decide) (by decide),
      hpost 3 (by decide) (by decide)⟩
  · obtain ⟨out, h, hl, hval⟩ := (MapErr_result 0 [10, 20, 30, 40]
      (fun (x : Nat) (i : Int) => (x + i.toNat, (none : Option String)))).1 (fun _ _ _ => rfl)
    exact ⟨out, h, hl, hval 3 40 (by decide)⟩

end Fp
